import Mathlib

/-!
# Verification of the Boolector expression-manager / propagation-engine core

A shallow embedding, in Lean 4, of the parts of the Boolector SMT solver
relevant to the claims under check:

* bit-vector values (`BtorBV`) — the value type of `btorbv.c`; that file is
  not part of the provided sources, so the operations are modelled from the
  specification (§3.1): width-exact unsigned arithmetic, wrapping modulo
  `2^w`;
* the node builders of `src/btornode.c`: constant normalisation, the sorted
  unique-table lookup (`sort_bv_exp` / `find_bv_exp`), args-tuple creation
  (`btor_node_create_args`), id assignment and reference counting;
* the local-search score and cone-of-influence update of
  `src/btorslvpropsls.c` (`compute_sls_score_node`, `update_roots_table`,
  `btor_propsls_update_cone`);
* the shared-node condition of the SMT-LIB printers
  (`src/dumper/btordumpsmt.c`, both versions present in the tree).

Scores, which are C `double`s in the source, are modelled as rationals; the
branch structure of the score computation is translated verbatim.
-/

namespace Boolector

/-! ## Bit-vector values

`BtorBV` models `BtorBitVector`: a width and an unsigned value.  A value is
*normal* when it fits in its width.  Operations are modelled from the
specification §3.1 (the implementation `btorbv.c` is not among the sources):
all operations wrap modulo `2^w` and are width-exact. -/

structure BtorBV where
  w : Nat
  v : Nat
  deriving DecidableEq, Repr

/-- `v < 2^w`: the stored value fits in the width. -/
def BtorBV.norm (a : BtorBV) : Prop := a.v < 2 ^ a.w

instance (a : BtorBV) : Decidable a.norm := by unfold BtorBV.norm; infer_instance

/-- `btor_bv_not` (spec §3.1): bitwise complement, `2^w - 1 - v`. -/
def bv_not (a : BtorBV) : BtorBV := ⟨a.w, 2 ^ a.w - 1 - a.v⟩

/-- `btor_bv_and` (spec §3.1). -/
def bv_and (a b : BtorBV) : BtorBV := ⟨a.w, a.v &&& b.v⟩

/-- `btor_bv_add` (spec §3.1): wraps modulo `2^w`. -/
def bv_add (a b : BtorBV) : BtorBV := ⟨a.w, (a.v + b.v) % 2 ^ a.w⟩

/-- `btor_bv_mul` (spec §3.1): wraps modulo `2^w`. -/
def bv_mul (a b : BtorBV) : BtorBV := ⟨a.w, a.v * b.v % 2 ^ a.w⟩

/-- `btor_bv_eq` (spec §3.1): width-1 result, `1` iff the operands agree. -/
def bv_eq (a b : BtorBV) : BtorBV := ⟨1, if a = b then 1 else 0⟩

/-- `btor_bv_ult` (spec §3.1): width-1 result, `1` iff `a < b` unsigned. -/
def bv_ult (a b : BtorBV) : BtorBV := ⟨1, if a.v < b.v then 1 else 0⟩

/-- `btor_bv_sll` (spec §3.1): left shift by the value of `b`, wraps. -/
def bv_sll (a b : BtorBV) : BtorBV := ⟨a.w, a.v * 2 ^ b.v % 2 ^ a.w⟩

/-- `btor_bv_srl` (spec §3.1): logical right shift by the value of `b`. -/
def bv_srl (a b : BtorBV) : BtorBV := ⟨a.w, a.v / 2 ^ b.v⟩

/-- `btor_bv_udiv` (spec §3.1, §8.3): division by zero yields all-ones. -/
def bv_udiv (a b : BtorBV) : BtorBV :=
  ⟨a.w, if b.v = 0 then 2 ^ a.w - 1 else a.v / b.v⟩

/-- `btor_bv_urem` (spec §3.1, §8.3): remainder by zero yields `a`. -/
def bv_urem (a b : BtorBV) : BtorBV := ⟨a.w, if b.v = 0 then a.v else a.v % b.v⟩

/-- `btor_bv_concat` (spec §3.1): `a` supplies the high bits. -/
def bv_concat (a b : BtorBV) : BtorBV := ⟨a.w + b.w, a.v * 2 ^ b.w + b.v⟩

/-- `btor_bv_slice` (spec §3.1): bits `upper` down to `lower`. -/
def bv_slice (a : BtorBV) (upper lower : Nat) : BtorBV :=
  ⟨upper - lower + 1, a.v / 2 ^ lower % 2 ^ (upper - lower + 1)⟩

/-- `btor_bv_is_true`: a width-1 value whose bit is set. -/
def bv_is_true (a : BtorBV) : Bool := a.v = 1

/-- `btor_bv_is_zero` / `btor_bv_is_false`: the stored value is zero. -/
def bv_is_zero (a : BtorBV) : Bool := a.v = 0

theorem bv_not_norm (a : BtorBV) : (bv_not a).norm := by
  show 2 ^ a.w - 1 - a.v < 2 ^ a.w
  have : 0 < 2 ^ a.w := Nat.pos_pow_of_pos _ (by omega)
  omega

theorem bv_not_not (a : BtorBV) (h : a.norm) : bv_not (bv_not a) = a := by
  cases a with
  | mk w v =>
    have h' : v < 2 ^ w := h
    have hp : 0 < 2 ^ w := Nat.pos_pow_of_pos _ (by omega)
    simp only [bv_not, BtorBV.mk.injEq, true_and]
    omega

theorem bv_not_w (a : BtorBV) : (bv_not a).w = a.w := rfl

/-! ## Population count, Hamming distance, minimal-flip counts

`hamming_distance` in `src/btorslvpropsls.c` xors the operands and then
counts loop iterations of `bv &= bv + ones` (clear the lowest set bit),
which is exactly the population count of the xor.  `min_flip` and
`min_flip_inv` walk the bits of the first operand from the most significant
end, clearing (resp. setting) bits until the comparison flips. -/

def popcount (n : Nat) : Nat :=
  if n = 0 then 0 else n % 2 + popcount (n / 2)
decreasing_by exact Nat.div_lt_self (Nat.pos_of_ne_zero (by assumption)) (by omega)

theorem popcount_le {n wid : Nat} (h : n < 2 ^ wid) : popcount n ≤ wid := by
  induction wid generalizing n with
  | zero =>
    have : n = 0 := by omega
    subst this; rw [popcount]; simp
  | succ k ih =>
    rw [popcount]
    by_cases h0 : n = 0
    · simp [h0]
    · simp only [h0, if_false]
      have hdiv : n / 2 < 2 ^ k := by
        rw [pow_succ] at h; omega
      have := ih hdiv
      omega

/-- `hamming_distance` (src/btorslvpropsls.c:20): popcount of the xor. -/
def hamming_distance (a b : BtorBV) : Nat := popcount (a.v ^^^ b.v)

theorem hamming_distance_le (a b : BtorBV) (ha : a.norm) (hb : b.norm)
    (hw : a.w = b.w) : hamming_distance a b ≤ a.w := by
  unfold hamming_distance
  exact popcount_le (Nat.xor_lt_two_pow ha (hw ▸ hb))

/-- Bit-clearing loop of `min_flip` (src/btorslvpropsls.c:52): walk bit
positions `j-1, …, 0` of `tmp`; each set bit costs one flip and is cleared;
stop as soon as `tmp < bv2`. -/
def min_flip_aux (bv2 : Nat) : Nat → Nat → Nat
  | 0, _ => 0
  | j + 1, tmp =>
    if tmp.testBit j then
      if tmp - 2 ^ j < bv2 then 1 else 1 + min_flip_aux bv2 j (tmp - 2 ^ j)
    else min_flip_aux bv2 j tmp

/-- `min_flip` (src/btorslvpropsls.c:52): minimal number of bits to clear in
`bv1` (from the MSB) so that it drops below `bv2`; for `bv2 = 0` it is the
Hamming distance to zero. -/
def min_flip (bv1 bv2 : BtorBV) : Nat :=
  if bv2.v = 0 then hamming_distance bv1 bv2 else min_flip_aux bv2.v bv1.w bv1.v

theorem min_flip_aux_le (bv2 : Nat) : ∀ j tmp, min_flip_aux bv2 j tmp ≤ j := by
  intro j
  induction j with
  | zero => intro tmp; rw [min_flip_aux]
  | succ k ih =>
    intro tmp
    rw [min_flip_aux]
    split
    · split
      · omega
      · have := ih (tmp - 2 ^ k); omega
    · have := ih tmp; omega

theorem min_flip_le (bv1 bv2 : BtorBV) (h1 : bv1.norm) (h2 : bv2.norm)
    (hw : bv1.w = bv2.w) : min_flip bv1 bv2 ≤ bv1.w := by
  unfold min_flip
  split
  · exact hamming_distance_le bv1 bv2 h1 h2 hw
  · exact min_flip_aux_le _ _ _

/-- Bit-setting loop of `min_flip_inv` (src/btorslvpropsls.c:82): walk bit
positions from the MSB; each clear bit costs one flip and is set; stop as
soon as `tmp ≥ bv2`. -/
def min_flip_inv_aux (bv2 : Nat) : Nat → Nat → Nat
  | 0, _ => 0
  | j + 1, tmp =>
    if tmp.testBit j then min_flip_inv_aux bv2 j tmp
    else
      if bv2 ≤ tmp + 2 ^ j then 1 else 1 + min_flip_inv_aux bv2 j (tmp + 2 ^ j)

/-- `min_flip_inv` (src/btorslvpropsls.c:82). -/
def min_flip_inv (bv1 bv2 : BtorBV) : Nat := min_flip_inv_aux bv2.v bv1.w bv1.v

theorem min_flip_inv_aux_le (bv2 : Nat) : ∀ j tmp, min_flip_inv_aux bv2 j tmp ≤ j := by
  intro j
  induction j with
  | zero => intro tmp; rw [min_flip_inv_aux]
  | succ k ih =>
    intro tmp
    rw [min_flip_inv_aux]
    split
    · have := ih tmp; omega
    · split
      · omega
      · have := ih (tmp + 2 ^ k); omega

theorem min_flip_inv_le (bv1 bv2 : BtorBV) : min_flip_inv bv1 bv2 ≤ bv1.w :=
  min_flip_inv_aux_le _ _ _

/-! ## Tagged node references

A `BtorNode *` child pointer carries the boolean negation in bit 0
(`BTOR_INVERT_NODE` / `BTOR_REAL_ADDR_NODE`); we model it as an explicit
pair of the negation flag and the real node id. -/

structure NRef where
  inv : Bool
  id : Nat
  deriving DecidableEq, Repr

/-- `BTOR_INVERT_NODE`: flip the negation tag. -/
def invertRef (r : NRef) : NRef := ⟨!r.inv, r.id⟩

theorem invertRef_invertRef (r : NRef) : invertRef (invertRef r) = r := by
  cases r with
  | mk i n => simp [invertRef]

/-- `btor_node_get_id` on a tagged reference: the signed id, negative when
the reference is inverted. -/
def sidRef (r : NRef) : Int := if r.inv then -(r.id : Int) else (r.id : Int)

/-! ## Constant creation (`btor_node_create_const`, src/btornode.c:1913)

The unique table is modelled as the list of stored constant nodes, indexed
by position.  `find_const_exp` (src/btornode.c:1270) walks the hash chain
and stops at the first constant node with the same width and the same
bits; collapsing the hash structure, this is the first list entry equal to
the key. -/

def findBits : List BtorBV → BtorBV → Option Nat
  | [], _ => none
  | c :: rest, b => if c = b then some 0 else (findBits rest b).map (· + 1)

theorem findBits_getD (l : List BtorBV) (b d : BtorBV) :
    ∀ i, findBits l b = some i → l.getD i d = b := by
  induction l with
  | nil => intro i h; simp [findBits] at h
  | cons c rest ih =>
    intro i h
    rw [findBits] at h
    by_cases hc : c = b
    · simp [hc] at h; subst h; simpa using hc
    · simp only [hc, if_false, Option.map_eq_some'] at h
      obtain ⟨j, hj, rfl⟩ := h
      simpa using ih j hj

/-- `btor_node_create_const` (src/btornode.c:1913): constants are
normalised to an even bit pattern; an odd input is stored as the bitwise
complement with the returned reference carrying the negation tag.  The
result is `(new table, negation tag, stored bits of the node)`. -/
def btor_node_create_const (tbl : List BtorBV) (bits : BtorBV) :
    List BtorBV × Bool × BtorBV :=
  let odd : Bool := bits.v % 2 = 1
  let lookupbits := if odd then bv_not bits else bits
  match findBits tbl lookupbits with
  | some i => (tbl, odd, tbl.getD i lookupbits)
  | none => (tbl ++ [lookupbits], odd, lookupbits)

/-! ## Id assignment and reference counting (src/btornode.c)

`setup_node_and_add_to_id_table` (src/btornode.c:289) assigns the next id
(the current size of `nodes_id_table`) and aborts fatally — `BTOR_ABORT`,
modelled as `none` — when that id has reached `INT_MAX`; on success the
table grows by one.  `inc_exp_ref_counter` (src/btornode.c:121) aborts
fatally when the reference counter already equals `INT_MAX`. -/

def INT_MAX : Nat := 2147483647

/-- `setup_node_and_add_to_id_table`: from the current id-table size,
either abort (`none`) or return `(assigned id, new table size)`. -/
def setup_node_and_add_to_id_table (idTableCount : Nat) : Option (Nat × Nat) :=
  if idTableCount = INT_MAX then none else some (idTableCount, idTableCount + 1)

/-- `inc_exp_ref_counter`: abort (`none`) when `refs = INT_MAX`, else
increment. -/
def inc_exp_ref_counter (refs : Nat) : Option Nat :=
  if refs = INT_MAX then none else some (refs + 1)

/-! ## Args tuples (`btor_node_create_args`, src/btornode.c:2281)

Arguments are folded, from the back of the array, into a right-leaning
chain of args nodes of at most `ARGS_MAX_NUM_CHILDREN = 3` slots; in every
args node but the deepest, the third slot links the previously created
args node.  A created node is a list of slots; `ArgsSlot.tuple i` links the
`i`-th created node of the chain (creation order). -/

inductive ArgsSlot where
  | leaf (r : NRef)
  | tuple (chainIdx : Nat)
  deriving DecidableEq, Repr

/-- The loop of `btor_node_create_args` after the deepest node is full:
consume the remaining leaves two at a time from the back (`rem` is the
remaining prefix, reversed), linking the previously created node into the
third slot.  The accumulator holds the created nodes, newest first. -/
def create_args_go : List NRef → List (List ArgsSlot) → List (List ArgsSlot)
  | [], acc => acc
  | [_], acc => acc
  | x :: y :: rest, acc =>
    create_args_go rest
      ([ArgsSlot.leaf y, ArgsSlot.leaf x, ArgsSlot.tuple (acc.length - 1)] :: acc)

/-- `btor_node_create_args`: `num_args = argc / 2` for `argc > 3` (the
`rem_free > 1` correction never fires for `ARGS_MAX_NUM_CHILDREN = 3`,
since `rem_free = argc % 2 ≤ 1`), one node otherwise; the deepest node
takes the last `cur_argc` leaves.  Returns the created args nodes, newest
first. -/
def btor_node_create_args (args : List NRef) : List (List ArgsSlot) :=
  let argc := args.length
  let num_args := if argc ≤ 3 then 1 else argc / 2
  let cur_argc := if argc ≤ 3 then argc else argc - (num_args - 1) * 2
  let deepest := (args.drop (argc - cur_argc)).map ArgsSlot.leaf
  create_args_go (args.take (argc - cur_argc)).reverse [deepest]

theorem create_args_go_length :
    ∀ (l : List NRef) (acc : List (List ArgsSlot)),
      (create_args_go l acc).length = acc.length + l.length / 2
  | [], acc => by simp [create_args_go]
  | [_], acc => by simp [create_args_go]
  | _ :: _ :: rest, acc => by
    rw [create_args_go, create_args_go_length rest]
    simp only [List.length_cons]
    omega

theorem create_args_go_mem :
    ∀ (l : List NRef) (acc : List (List ArgsSlot)) (node : List ArgsSlot),
      node ∈ create_args_go l acc →
      node ∈ acc ∨
        ∃ a b c, node = [ArgsSlot.leaf a, ArgsSlot.leaf b, ArgsSlot.tuple c]
  | [], _, _, h => Or.inl h
  | [_], _, _, h => Or.inl h
  | x :: y :: rest, acc, node, h => by
    rcases create_args_go_mem rest _ node h with h' | h'
    · rcases List.mem_cons.mp h' with h'' | h''
      · exact Or.inr ⟨y, x, acc.length - 1, h''⟩
      · exact Or.inl h''
    · exact Or.inr h'

/-- A legal args node: at most three slots, and only the third slot may
hold a nested args tuple (the first two slots are leaf arguments). -/
def argsNodeOk (node : List ArgsSlot) : Prop :=
  node.length ≤ 3 ∧ ∀ s ∈ node.take 2, ∃ r, s = ArgsSlot.leaf r

theorem btor_node_create_const_fields (tbl : List BtorBV) (bits : BtorBV) :
    (btor_node_create_const tbl bits).2.2 =
        (if bits.v % 2 = 1 then bv_not bits else bits) ∧
      (btor_node_create_const tbl bits).2.1 = decide (bits.v % 2 = 1) := by
  unfold btor_node_create_const
  rcases hfind :
      findBits tbl (if decide (bits.v % 2 = 1) = true then bv_not bits else bits)
    with _ | i
  · simp only [hfind]
    constructor
    · split <;> simp_all
    · trivial
  · simp only [hfind]
    constructor
    · have := findBits_getD tbl
        (if decide (bits.v % 2 = 1) = true then bv_not bits else bits)
        (if decide (bits.v % 2 = 1) = true then bv_not bits else bits) i hfind
      rw [this]
      split <;> simp_all
    · trivial

/-- **C4.** For every bit-vector value passed to `btor_node_create_const`,
the node placed in (or found in) the unique table stores bits with bit 0
equal to 0; for an odd input the stored bits are the bitwise complement of
the input and the returned reference carries the negation tag, so the
returned reference denotes the original value in either case. -/
theorem btor_node_create_const_normalized (tbl : List BtorBV) (bits : BtorBV)
    (hw : 0 < bits.w) (hn : bits.norm) :
    (btor_node_create_const tbl bits).2.2.v % 2 = 0 ∧
      (btor_node_create_const tbl bits).2.1 = decide (bits.v % 2 = 1) ∧
      (btor_node_create_const tbl bits).2.2 =
        (if bits.v % 2 = 1 then bv_not bits else bits) ∧
      (if (btor_node_create_const tbl bits).2.1 then
          bv_not (btor_node_create_const tbl bits).2.2
        else (btor_node_create_const tbl bits).2.2) = bits := by
  obtain ⟨hbits, htag⟩ := btor_node_create_const_fields tbl bits
  have h2 : (2 : Nat) ∣ 2 ^ bits.w := dvd_pow_self 2 (by omega)
  have hnv : bits.v < 2 ^ bits.w := hn
  refine ⟨?_, htag, hbits, ?_⟩
  · rw [hbits]
    by_cases hodd : bits.v % 2 = 1
    · simp only [hodd, if_true, bv_not]
      omega
    · simp only [hodd, if_false]
      omega
  · rw [hbits, htag]
    by_cases hodd : bits.v % 2 = 1
    · simp [hodd, bv_not_not bits hn]
    · simp [hodd]

/-- Witness for `btor_node_create_const_normalized` at the odd constant
`0b0101` of width 4. -/
theorem btor_node_create_const_normalized_witness :
    (btor_node_create_const [] ⟨4, 5⟩).2.2.v % 2 = 0 ∧
      (btor_node_create_const [] ⟨4, 5⟩).2.1 =
        decide ((5 : Nat) % 2 = 1) ∧
      (btor_node_create_const [] ⟨4, 5⟩).2.2 =
        (if (5 : Nat) % 2 = 1 then bv_not ⟨4, 5⟩ else ⟨4, 5⟩) ∧
      (if (btor_node_create_const [] ⟨4, 5⟩).2.1 then
          bv_not (btor_node_create_const [] ⟨4, 5⟩).2.2
        else (btor_node_create_const [] ⟨4, 5⟩).2.2) = ⟨4, 5⟩ :=
  btor_node_create_const_normalized [] ⟨4, 5⟩ (by decide) (by decide)

/-- **C8.** Node creation and reference copying abort fatally (modelled:
return `none`, there is no error value handed to the caller) exactly when
the next node id equals `INT_MAX`, respectively when the reference counter
already equals `INT_MAX`; otherwise the id is the current id-table size,
the table grows by one, and the counter increments. -/
theorem node_overflow_aborts (idTableCount refs : Nat) :
    (setup_node_and_add_to_id_table idTableCount = none ↔
        idTableCount = INT_MAX) ∧
      (∀ i cnt, setup_node_and_add_to_id_table idTableCount = some (i, cnt) →
        i = idTableCount ∧ cnt = i + 1) ∧
      (inc_exp_ref_counter refs = none ↔ refs = INT_MAX) ∧
      (∀ r, inc_exp_ref_counter refs = some r → r = refs + 1) := by
  refine ⟨?_, ?_, ?_, ?_⟩
  · unfold setup_node_and_add_to_id_table; split <;> simp_all
  · unfold setup_node_and_add_to_id_table; split <;> simp_all
  · unfold inc_exp_ref_counter; split <;> simp_all
  · unfold inc_exp_ref_counter; split <;> simp_all

/-- Witness for `node_overflow_aborts`: at `INT_MAX` both operations abort;
at table size 7 the assigned id is 7 and the table grows to 8. -/
theorem node_overflow_aborts_witness :
    (setup_node_and_add_to_id_table INT_MAX = none ∧
        inc_exp_ref_counter INT_MAX = none) ∧
      7 = 7 ∧ 8 = 7 + 1 :=
  ⟨⟨(node_overflow_aborts INT_MAX 0).1.mpr rfl,
      (node_overflow_aborts 0 INT_MAX).2.2.1.mpr rfl⟩,
    (node_overflow_aborts 7 0).2.1 7 8 (by decide)⟩

/-- **C6 counterexample.** For `k = 2` leaf arguments,
`btor_node_create_args` creates a single args node, but the claimed count
`⌈(k−1)/2⌉ + 1` is 2. -/
theorem btor_node_create_args_count_cex :
    (btor_node_create_args [⟨false, 0⟩, ⟨false, 1⟩]).length = 1 ∧
      (2 - 1 + 1) / 2 + 1 = 2 ∧
      (btor_node_create_args [⟨false, 0⟩, ⟨false, 1⟩]).length ≠
        (2 - 1 + 1) / 2 + 1 := by
  decide

/-- **C6 amended.** For every `k ≥ 1`, `btor_node_create_args` folds `k`
leaf arguments into exactly `max 1 ⌈(k−1)/2⌉` args tuple nodes (the
claimed `⌈(k−1)/2⌉ + 1` overcounts by one for `k ≥ 2`, and the ceiling is
0 at `k = 1`), each node holding at most three child slots where only the
third slot may itself be an args node. -/
theorem btor_node_create_args_count (args : List NRef)
    (h : 1 ≤ args.length) :
    (btor_node_create_args args).length =
        max 1 ((args.length - 1 + 1) / 2) ∧
      ∀ node ∈ btor_node_create_args args, argsNodeOk node := by
  constructor
  · unfold btor_node_create_args
    rw [create_args_go_length]
    simp only [List.length_reverse, List.length_take, List.length_cons,
      List.length_nil]
    by_cases h3 : args.length ≤ 3
    · simp only [h3, if_true]
      omega
    · simp only [h3, if_false]
      omega
  · intro node hmem
    unfold btor_node_create_args at hmem
    rcases create_args_go_mem _ _ _ hmem with h' | h'
    · have hnode : node = ((args.drop
          (args.length - if args.length ≤ 3 then args.length
            else args.length - ((if args.length ≤ 3 then 1
              else args.length / 2) - 1) * 2)).map ArgsSlot.leaf) := by
        simpa using h'
      subst hnode
      constructor
      · simp only [List.length_map, List.length_drop]
        by_cases h3 : args.length ≤ 3 <;> simp only [h3, if_true, if_false] <;> omega
      · intro s hs
        have := List.mem_of_mem_take hs
        rcases List.mem_map.mp this with ⟨r, _, rfl⟩
        exact ⟨r, rfl⟩
    · rcases h' with ⟨a, b, c, rfl⟩
      refine ⟨by simp, ?_⟩
      intro s hs
      have hs' : s = ArgsSlot.leaf a ∨ s = ArgsSlot.leaf b := by
        simpa using hs
      rcases hs' with rfl | rfl
      · exact ⟨a, rfl⟩
      · exact ⟨b, rfl⟩

/-- Witness for `btor_node_create_args_count`: five leaves fold into
`max 1 ⌈(5−1)/2⌉ = 2` args nodes. -/
theorem btor_node_create_args_count_witness :
    (btor_node_create_args
        [⟨false, 0⟩, ⟨false, 1⟩, ⟨false, 2⟩, ⟨false, 3⟩, ⟨false, 4⟩]).length =
      max 1 ((5 - 1 + 1) / 2) :=
  (btor_node_create_args_count
    [⟨false, 0⟩, ⟨false, 1⟩, ⟨false, 2⟩, ⟨false, 3⟩, ⟨false, 4⟩]
    (by decide)).1

/-! ## The node table and the bv-expression unique table (src/btornode.c)

The table of created nodes, indexed by id (the C `nodes_id_table` assigns
ids densely in creation order, src/btornode.c:289).  The hash chains of
`nodes_unique_table` are collapsed into a scan of the created nodes in id
order: a lookup hits iff some structurally matching node exists, and the
first match is returned. -/

inductive BKind where
  | BTOR_BV_VAR_NODE
  | BTOR_AND_NODE
  | BTOR_BV_EQ_NODE
  | BTOR_FUN_EQ_NODE
  | BTOR_ADD_NODE
  | BTOR_MUL_NODE
  | BTOR_ULT_NODE
  deriving DecidableEq, Repr

/-- `btor_is_binary_commutative_node_kind`.  Modelled from the spec: the
commutative kinds are `{and, bv_eq, fun_eq, add, mul}` (§4.1.1); the
predicate itself lives in `btornode.h`, which is not among the sources. -/
def is_binary_commutative_node_kind : BKind → Bool
  | .BTOR_AND_NODE => true
  | .BTOR_BV_EQ_NODE => true
  | .BTOR_FUN_EQ_NODE => true
  | .BTOR_ADD_NODE => true
  | .BTOR_MUL_NODE => true
  | _ => false

structure BtorNodeData where
  kind : BKind
  ch : List NRef
  deriving DecidableEq, Repr

structure NodeTable where
  nodes : List BtorNodeData
  deriving DecidableEq, Repr

/-- `is_sorted_bv_exp` (src/btornode.c:1251): with the sort-exp option on
and a commutative kind, a pair is sorted when the children are identical,
or the second is the inversion of the first, or the real ids are
ascending. -/
def is_sorted_bv_exp (sortExpOpt : Bool) (kind : BKind) (e0 e1 : NRef) :
    Bool :=
  if !sortExpOpt then true
  else if !is_binary_commutative_node_kind kind then true
  else if e0 = e1 then true
  else if invertRef e0 = e1 && e1.inv then true
  else e0.id ≤ e1.id

/-- `sort_bv_exp` (src/btornode.c:1261): swap the children when unsorted. -/
def sort_bv_exp (sortExpOpt : Bool) (kind : BKind) (e0 e1 : NRef) :
    NRef × NRef :=
  if is_sorted_bv_exp sortExpOpt kind e0 e1 then (e0, e1) else (e1, e0)

/-- The match test of the chain walk in `find_bv_exp`
(src/btornode.c:1347): same kind and the exact children — or, for `bv_eq`
only, both children complemented (`(= (bvnot a) b) == (= a (bvnot b))`). -/
def bv_exp_matches (kind : BKind) (e0 e1 : NRef) (cur : BtorNodeData) :
    Bool :=
  cur.kind = kind &&
    (cur.ch = [e0, e1] ||
      (kind = BKind.BTOR_BV_EQ_NODE &&
        cur.ch = [invertRef e0, invertRef e1]))

/-- Position of the first list element satisfying `p`. -/
def findFirst {α : Type} (p : α → Bool) : List α → Option Nat
  | [] => none
  | c :: rest => if p c then some 0 else (findFirst p rest).map (· + 1)

/-- `btor_node_create_var` (src/btornode.c:1959): a fresh childless node,
id = current table size. -/
def create_var (tbl : NodeTable) : NodeTable × Nat :=
  (⟨tbl.nodes ++ [⟨.BTOR_BV_VAR_NODE, []⟩]⟩, tbl.nodes.length)

/-- `create_exp` on a binary bv kind (src/btornode.c:1842 via
`find_bv_exp`, src/btornode.c:1330): sort the children, look them up, on a
hit return the existing node's id (its refcount is bumped), else append a
new node holding the sorted children. -/
def create_exp (sortExpOpt : Bool) (tbl : NodeTable) (kind : BKind)
    (e0 e1 : NRef) : NodeTable × Nat :=
  let f := sort_bv_exp sortExpOpt kind e0 e1
  match findFirst (bv_exp_matches kind f.1 f.2) tbl.nodes with
  | some i => (tbl, i)
  | none => (⟨tbl.nodes ++ [⟨kind, [f.1, f.2]⟩]⟩, tbl.nodes.length)

/-- The childless placeholder read for out-of-range ids. -/
def defaultNode : BtorNodeData := ⟨.BTOR_BV_VAR_NODE, []⟩

/-- The well-formedness invariant of the id table: every node's children
have strictly smaller ids (children exist before their parent). -/
def tableWF (tbl : NodeTable) : Prop :=
  ∀ i, ∀ r ∈ (tbl.nodes.getD i defaultNode).ch, r.id < i

/-- One builder call of the expression manager.  `mkExp` requires existing
children (the C builders receive pointers to already-created nodes); a
call with a dangling child id is a no-op here. -/
inductive BuildStep where
  | mkVar
  | mkExp (sortExpOpt : Bool) (kind : BKind) (e0 e1 : NRef)
  deriving DecidableEq, Repr

def runBuildStep (tbl : NodeTable) : BuildStep → NodeTable
  | .mkVar => (create_var tbl).1
  | .mkExp so k a b =>
    if a.id < tbl.nodes.length ∧ b.id < tbl.nodes.length then
      (create_exp so tbl k a b).1
    else tbl

/-- A node table built from scratch by a sequence of builder calls. -/
def runBuild (steps : List BuildStep) : NodeTable :=
  steps.foldl runBuildStep ⟨[]⟩

theorem findFirst_congr {α : Type} (p q : α → Bool) (l : List α)
    (h : ∀ x ∈ l, p x = q x) : findFirst p l = findFirst q l := by
  induction l with
  | nil => rfl
  | cons c rest ih =>
    rw [findFirst, findFirst, h c (by simp)]
    rw [ih (fun x hx => h x (by simp [hx]))]

theorem findFirst_append_none {α : Type} (p : α → Bool) (l : List α) (x : α)
    (h : findFirst p l = none) :
    findFirst p (l ++ [x]) = if p x then some l.length else none := by
  induction l with
  | nil => simp [findFirst]
  | cons c rest ih =>
    by_cases hc : p c = true
    · rw [findFirst, if_pos hc] at h
      cases h
    · rw [findFirst, if_neg hc, Option.map_eq_none'] at h
      rw [List.cons_append, findFirst, if_neg hc, ih h]
      cases hx : p x <;> simp

theorem is_sorted_bv_exp_invert (so : Bool) (k : BKind) (a b : NRef) :
    is_sorted_bv_exp so k (invertRef a) (invertRef b) =
      is_sorted_bv_exp so k a b := by
  rcases a with ⟨ia, na⟩
  rcases b with ⟨ib, nb⟩
  by_cases hid : na = nb
  · subst hid
    cases ia <;> cases ib <;>
      simp [is_sorted_bv_exp, invertRef, NRef.mk.injEq]
  · cases ia <;> cases ib <;>
      simp [is_sorted_bv_exp, invertRef, NRef.mk.injEq, hid]

theorem sort_bv_exp_invert (so : Bool) (k : BKind) (a b : NRef) :
    sort_bv_exp so k (invertRef a) (invertRef b) =
      (invertRef (sort_bv_exp so k a b).1,
        invertRef (sort_bv_exp so k a b).2) := by
  unfold sort_bv_exp
  rw [is_sorted_bv_exp_invert]
  split <;> rfl

theorem is_sorted_bv_exp_of_id_ne (k : BKind) (a b : NRef)
    (hcomm : is_binary_commutative_node_kind k = true) (h : a.id ≠ b.id) :
    is_sorted_bv_exp true k a b = decide (a.id ≤ b.id) := by
  have hab : a ≠ b := fun e => h (by rw [e])
  have hinv : invertRef a ≠ b := fun e => h (by rw [← e]; rfl)
  simp [is_sorted_bv_exp, hcomm, hab, hinv]

theorem sort_bv_exp_swap (k : BKind)
    (hcomm : is_binary_commutative_node_kind k = true) (a b : NRef)
    (h : a.id ≠ b.id ∨ a = b) :
    sort_bv_exp true k b a = sort_bv_exp true k a b := by
  rcases h with h | rfl
  · unfold sort_bv_exp
    rw [is_sorted_bv_exp_of_id_ne k a b hcomm h,
      is_sorted_bv_exp_of_id_ne k b a hcomm (fun e => h e.symm)]
    rcases Nat.lt_or_ge a.id b.id with hlt | hge
    · rw [if_neg (by simp; omega), if_pos (by simp; omega)]
    · have hlt' : b.id < a.id := by omega
      rw [if_pos (by simp; omega), if_neg (by simp; omega)]
  · rfl

theorem bv_exp_matches_invert (x y : NRef) (cur : BtorNodeData) :
    bv_exp_matches .BTOR_BV_EQ_NODE (invertRef x) (invertRef y) cur =
      bv_exp_matches .BTOR_BV_EQ_NODE x y cur := by
  simp only [bv_exp_matches, invertRef_invertRef]
  cases h1 : decide (cur.ch = [invertRef x, invertRef y]) <;>
    cases h2 : decide (cur.ch = [x, y]) <;> simp_all

/-- After a node is created (or found), a second lookup whose match
predicate agrees pointwise with the first hits the same node: the id is
returned unchanged and nothing is allocated. -/
theorem create_exp_hits (so so' : Bool) (tbl : NodeTable) (k : BKind)
    (a b a' b' : NRef)
    (hpt : ∀ cur,
      bv_exp_matches k (sort_bv_exp so' k a' b').1
          (sort_bv_exp so' k a' b').2 cur =
        bv_exp_matches k (sort_bv_exp so k a b).1
          (sort_bv_exp so k a b).2 cur) :
    create_exp so' (create_exp so tbl k a b).1 k a' b' =
      ((create_exp so tbl k a b).1, (create_exp so tbl k a b).2) := by
  unfold create_exp
  rcases hfind : findFirst
      (bv_exp_matches k (sort_bv_exp so k a b).1 (sort_bv_exp so k a b).2)
      tbl.nodes with _ | i
  · simp only [hfind]
    rw [findFirst_congr _ _ _ (fun x _ => hpt x),
      findFirst_append_none _ _ _ hfind]
    have hself : bv_exp_matches k (sort_bv_exp so k a b).1
        (sort_bv_exp so k a b).2
        ⟨k, [(sort_bv_exp so k a b).1, (sort_bv_exp so k a b).2]⟩ = true := by
      simp [bv_exp_matches]
    simp [hself]
  · simp only [hfind]
    rw [findFirst_congr _ _ _ (fun x _ => hpt x), hfind]

/-- **C3 counterexample.** With the sort-exp option on, building
`and(x, ¬x)` and then `and(¬x, x)` over the same variable `x` allocates
two distinct nodes: the children have equal real ids, so ordering by real
id cannot merge the two child orders, and the unique-table match for
`and` requires the exact children. -/
theorem create_exp_commutative_cex :
    (create_exp true
        (create_exp true ⟨[⟨.BTOR_BV_VAR_NODE, []⟩]⟩ .BTOR_AND_NODE
          ⟨false, 0⟩ ⟨true, 0⟩).1 .BTOR_AND_NODE ⟨true, 0⟩ ⟨false, 0⟩).2 ≠
      (create_exp true ⟨[⟨.BTOR_BV_VAR_NODE, []⟩]⟩ .BTOR_AND_NODE
        ⟨false, 0⟩ ⟨true, 0⟩).2 := by
  decide

/-- **C3 amended.** For a commutative kind with the sort-exp option on,
building with children `(a, b)` and then `(b, a)` returns the same
unique-table node (same id, no new allocation) — provided `b` is not the
complement `¬a` of `a`; for `bv_eq` the property holds for all `a`, `b`
(the complement pair is merged by the complement rule of
`find_bv_exp`). -/
theorem create_exp_commutative (tbl : NodeTable) (k : BKind) (a b : NRef)
    (hcomm : is_binary_commutative_node_kind k = true)
    (hcompl : k ≠ .BTOR_BV_EQ_NODE → invertRef a ≠ b) :
    create_exp true (create_exp true tbl k a b).1 k b a =
      ((create_exp true tbl k a b).1, (create_exp true tbl k a b).2) := by
  by_cases hid : a.id ≠ b.id ∨ a = b
  · exact create_exp_hits true true tbl k a b b a
      (fun cur => by rw [sort_bv_exp_swap k hcomm a b hid])
  · push_neg at hid
    obtain ⟨hideq, hne⟩ := hid
    have hb : b = invertRef a := by
      rcases a with ⟨ia, na⟩
      rcases b with ⟨ib, nb⟩
      simp only [NRef.mk.injEq] at hideq hne ⊢
      subst hideq
      cases ia <;> cases ib <;> simp_all [invertRef]
    have hk : k = .BTOR_BV_EQ_NODE := by
      by_contra hkne
      exact hcompl hkne hb.symm
    subst hk
    refine create_exp_hits true true tbl _ a b b a (fun cur => ?_)
    have hba : invertRef b = a := by rw [hb, invertRef_invertRef]
    have h2 := sort_bv_exp_invert true .BTOR_BV_EQ_NODE a b
    rw [hba, ← hb] at h2
    rw [h2]
    exact bv_exp_matches_invert _ _ cur

/-- Witness for `create_exp_commutative`: `add(v0, v1)` then `add(v1, v0)`
over two distinct variables yields the node created first. -/
theorem create_exp_commutative_witness :
    create_exp true
        (create_exp true ⟨[⟨.BTOR_BV_VAR_NODE, []⟩, ⟨.BTOR_BV_VAR_NODE, []⟩]⟩
          .BTOR_ADD_NODE ⟨false, 0⟩ ⟨false, 1⟩).1 .BTOR_ADD_NODE
        ⟨false, 1⟩ ⟨false, 0⟩ =
      ((create_exp true ⟨[⟨.BTOR_BV_VAR_NODE, []⟩, ⟨.BTOR_BV_VAR_NODE, []⟩]⟩
          .BTOR_ADD_NODE ⟨false, 0⟩ ⟨false, 1⟩).1,
        (create_exp true ⟨[⟨.BTOR_BV_VAR_NODE, []⟩, ⟨.BTOR_BV_VAR_NODE, []⟩]⟩
          .BTOR_ADD_NODE ⟨false, 0⟩ ⟨false, 1⟩).2) :=
  create_exp_commutative _ .BTOR_ADD_NODE ⟨false, 0⟩ ⟨false, 1⟩ (by decide)
    (fun _ => by decide)

/-- **C9.** The unique-table lookup for `bv_eq` also matches an existing
`bv_eq` node whose children are the complements of the requested children:
after building `bv_eq(a, b)`, building `bv_eq(¬a, ¬b)` returns the very
same node id without allocating. -/
theorem find_bv_exp_complement (tbl : NodeTable) (a b : NRef) :
    create_exp true (create_exp true tbl .BTOR_BV_EQ_NODE a b).1
        .BTOR_BV_EQ_NODE (invertRef a) (invertRef b) =
      ((create_exp true tbl .BTOR_BV_EQ_NODE a b).1,
        (create_exp true tbl .BTOR_BV_EQ_NODE a b).2) := by
  refine create_exp_hits true true tbl _ a b (invertRef a) (invertRef b)
    (fun cur => ?_)
  rw [sort_bv_exp_invert]
  exact bv_exp_matches_invert _ _ cur

theorem sort_bv_exp_mem (so : Bool) (k : BKind) (a b : NRef) :
    (sort_bv_exp so k a b = (a, b)) ∨ (sort_bv_exp so k a b = (b, a)) := by
  unfold sort_bv_exp
  split
  · exact Or.inl rfl
  · exact Or.inr rfl

theorem getD_append_lt {α : Type} (l1 l2 : List α) (i : Nat) (d : α)
    (h : i < l1.length) : (l1 ++ l2).getD i d = l1.getD i d := by
  induction l1 generalizing i with
  | nil => simp at h
  | cons c rest ih =>
    cases i with
    | zero => rfl
    | succ j =>
      simp only [List.cons_append, List.getD_cons_succ]
      exact ih j (by simpa using h)

theorem getD_append_ge {α : Type} (l1 l2 : List α) (i : Nat) (d : α)
    (h : l1.length ≤ i) : (l1 ++ l2).getD i d = l2.getD (i - l1.length) d := by
  induction l1 generalizing i with
  | nil => simp
  | cons c rest ih =>
    cases i with
    | zero => simp at h
    | succ j =>
      simp only [List.cons_append, List.getD_cons_succ, List.length_cons]
      rw [ih j (by simpa using h)]
      congr 1
      omega

theorem tableWF_append (tbl : NodeTable) (node : BtorNodeData)
    (hwf : tableWF tbl) (hch : ∀ r ∈ node.ch, r.id < tbl.nodes.length) :
    tableWF ⟨tbl.nodes ++ [node]⟩ := by
  intro i r hr
  by_cases hi : i < tbl.nodes.length
  · rw [getD_append_lt _ _ _ _ hi] at hr
    exact hwf i r hr
  · rw [getD_append_ge _ _ _ _ (by omega)] at hr
    by_cases hieq : i = tbl.nodes.length
    · subst hieq
      simp only [Nat.sub_self, List.getD_cons_zero] at hr
      exact hch r hr
    · rcases hm : i - tbl.nodes.length with _ | j
      · omega
      · rw [hm] at hr
        simp [defaultNode, List.getD] at hr

theorem runBuildStep_wf (tbl : NodeTable) (s : BuildStep)
    (hwf : tableWF tbl) : tableWF (runBuildStep tbl s) := by
  cases s with
  | mkVar =>
    exact tableWF_append tbl _ hwf (by intro r hr; simp at hr)
  | mkExp so k a b =>
    rw [runBuildStep]
    split
    · next hvalid =>
      unfold create_exp
      rcases hfind : findFirst
          (bv_exp_matches k (sort_bv_exp so k a b).1 (sort_bv_exp so k a b).2)
          tbl.nodes with _ | i
      · simp only [hfind]
        refine tableWF_append tbl _ hwf ?_
        intro r hr
        have hmem : r = (sort_bv_exp so k a b).1 ∨
            r = (sort_bv_exp so k a b).2 := by simpa using hr
        rcases sort_bv_exp_mem so k a b with hs | hs <;>
          rcases hmem with rfl | rfl <;> rw [hs] <;> simp <;> omega
      · simpa only [hfind] using hwf
    · exact hwf

theorem runBuild_wf (steps : List BuildStep) : tableWF (runBuild steps) := by
  have hgen : ∀ (l : List BuildStep) (t : NodeTable), tableWF t →
      tableWF (l.foldl runBuildStep t) := by
    intro l
    induction l with
    | nil => intro t h; exact h
    | cons s rest ih =>
      intro t h
      exact ih _ (runBuildStep_wf t s h)
  refine hgen steps ⟨[]⟩ ?_
  intro i r hr
  simp [defaultNode, List.getD] at hr

theorem sorted_indexOf_lt (l : List Nat) (hs : l.Sorted (· < ·)) :
    ∀ a b, a ∈ l → b ∈ l → a < b → l.indexOf a < l.indexOf b := by
  induction l with
  | nil => intro a b ha; cases ha
  | cons x xs ih =>
    intro a b ha hb hab
    rw [List.sorted_cons] at hs
    obtain ⟨hx, hs'⟩ := hs
    by_cases hax : a = x
    · subst hax
      have hbxs : b ∈ xs := by
        rcases List.mem_cons.mp hb with rfl | h
        · omega
        · exact h
      rw [List.indexOf_cons_self]
      rw [List.indexOf_cons_ne _ (by omega : a ≠ b)]
      omega
    · have haxs : a ∈ xs := by
        rcases List.mem_cons.mp ha with rfl | h
        · exact absurd rfl hax
        · exact h
      have hbx : b ≠ x := by
        intro e
        subst e
        exact absurd (hx a haxs) (by omega)
      rw [List.indexOf_cons_ne _ (fun e => hax e.symm),
        List.indexOf_cons_ne _ (fun e => hbx e.symm)]
      have := ih hs' a b haxs (by
        rcases List.mem_cons.mp hb with rfl | h
        · exact absurd rfl hbx
        · exact h) hab
      omega

/-- **C10.** In a table built through the expression manager, every node's
id is strictly greater than the ids of all its (real) children — ids come
from the monotonically growing id table and children exist before their
parent; consequently, for any list of node ids sorted ascending (as
`btor_propsls_update_cone` sorts the cone before recomputing assignments,
src/btorslvpropsls.c:662), every child of a listed node occurs in the
list before the node itself. -/
theorem node_id_gt_children (steps : List BuildStep) :
    tableWF (runBuild steps) ∧
      ∀ (l : List Nat), l.Sorted (· < ·) →
        ∀ i r, r ∈ ((runBuild steps).nodes.getD i defaultNode).ch →
          r.id ∈ l → i ∈ l → l.indexOf r.id < l.indexOf i := by
  refine ⟨runBuild_wf steps, ?_⟩
  intro l hsort i r hr hrl hil
  exact sorted_indexOf_lt l hsort r.id i hrl hil (runBuild_wf steps i r hr)

/-- Witness for `node_id_gt_children`: in the table `[var, var, add(v0,v1)]`
the child id 0 of node 2 is processed before node 2 in the sorted list
`[0, 2]`. -/
theorem node_id_gt_children_witness :
    List.indexOf 0 [0, 2] < List.indexOf 2 [0, 2] :=
  (node_id_gt_children
      [.mkVar, .mkVar, .mkExp true .BTOR_ADD_NODE ⟨false, 0⟩ ⟨false, 1⟩]).2
    [0, 2] (by decide) 2 ⟨false, 0⟩ (by decide) (by decide) (by decide)

/-! ## SMT-LIB printer: shared-node condition

Two printer versions are in the tree.  The current one
(src/src/dumper/btordumpsmt.c:1192) pushes a node onto the `shared` stack —
to be emitted as a top-level `define-fun` — unless one of its guards
holds; the legacy one (src/dumper/btordumpsmt.c:933) uses a different
guard list (`BTOR_IS_FUN_NODE` there covers lambda and UF nodes, and
apply nodes are excluded).  The guard reads the node's kind, its computed
dump reference count, and the `parameterized` flag. -/

inductive SKind where
  | bvConst
  | bvVar
  | uf
  | param
  | applyN
  | argsN
  | lambdaN
  | other
  deriving DecidableEq, Repr

/-- The shared condition of the current printer
(src/src/dumper/btordumpsmt.c:1198): `refs ≤ 1`, parameterized, param,
constant, variable, lambda, UF, and args nodes are skipped — apply nodes
are *not* skipped. -/
def dump_shared_current (refs : Nat) (k : SKind) (parameterized : Bool) :
    Bool :=
  !(refs ≤ 1 || parameterized || k = SKind.param || k = SKind.bvConst ||
    k = SKind.bvVar || k = SKind.lambdaN || k = SKind.uf || k = SKind.argsN)

/-- The shared condition of the legacy printer
(src/dumper/btordumpsmt.c:940): additionally skips apply nodes
(`BTOR_IS_APPLY_NODE`), with `BTOR_IS_FUN_NODE` covering lambda and UF. -/
def dump_shared_legacy (refs : Nat) (k : SKind) (parameterized : Bool) :
    Bool :=
  !(refs ≤ 1 || parameterized || k = SKind.bvConst || k = SKind.bvVar ||
    k = SKind.applyN || k = SKind.lambdaN || k = SKind.uf ||
    k = SKind.param || k = SKind.argsN)

/-- The shared condition in the words of the spec (§4.3.2): refcount above
one and not a constant, variable, UF, parameter, apply, args node, and not
parameterised. -/
def dump_shared_spec (refs : Nat) (k : SKind) (parameterized : Bool) :
    Prop :=
  1 < refs ∧ k ≠ SKind.bvConst ∧ k ≠ SKind.bvVar ∧ k ≠ SKind.uf ∧
    k ≠ SKind.param ∧ k ≠ SKind.applyN ∧ k ≠ SKind.argsN ∧
    parameterized = false

/-- **C7 counterexample.** An apply node with dump reference count 2 and
`parameterized = false` is collected as globally shared by the current
printer, while the claim's condition excludes applies. -/
theorem dump_shared_apply_cex :
    dump_shared_current 2 SKind.applyN false = true ∧
      ¬ dump_shared_spec 2 SKind.applyN false := by
  constructor
  · decide
  · intro h
    exact h.2.2.2.2.2.1 rfl

/-- **C7 amended.** In the current printer a node is collected as a
globally shared top-level definition exactly when its dump reference
count exceeds 1 and it is not a constant, not a variable, not a UF, not a
lambda, not a parameter, not an args node, and not parameterised — apply
nodes are *not* excluded.  The claimed condition (which also excludes
applies) is exactly the legacy printer's, up to the legacy fun-node guard
covering lambdas. -/
theorem dump_shared_conditions (refs : Nat) (k : SKind)
    (parameterized : Bool) :
    (dump_shared_current refs k parameterized = true ↔
        1 < refs ∧ k ≠ SKind.bvConst ∧ k ≠ SKind.bvVar ∧ k ≠ SKind.uf ∧
          k ≠ SKind.lambdaN ∧ k ≠ SKind.param ∧ k ≠ SKind.argsN ∧
          parameterized = false) ∧
      (dump_shared_legacy refs k parameterized = true ↔
        dump_shared_spec refs k parameterized ∧ k ≠ SKind.lambdaN) := by
  constructor
  · unfold dump_shared_current
    cases parameterized <;> cases k <;> simp
  · unfold dump_shared_legacy dump_shared_spec
    cases parameterized <;> cases k <;> simp

/-! ## Inverse-value computation for multiplication
(`inv_mul_bv`, src/btorslvpropsls.c:2837)

The bit-vector helpers it calls live in `btorbv.c`, which is not among the
sources; they are modelled from the spec §3.1: `mod_inverse` (defined only
for odd values, via extended Euclid), `power_of_two`, `set_bit`, `uext`.
The random draws (`btor_bv_new_random`, `btor_rng_pick_rand`) are
parameters of the embedding; a conflict (`BVMUL_CONF`, which falls back to
the consistent sampler or the non-recoverable-conflict handler) is
`none`. -/

/-- `btor_bv_mod_inverse` (spec §3.1): the inverse of an odd value modulo
`2^w`, via the Bézout coefficient of `v` against `2^w`. -/
def bv_mod_inverse (a : BtorBV) : BtorBV :=
  ⟨a.w, (Nat.gcdA a.v (2 ^ a.w) % (2 ^ a.w : Int)).toNat⟩

/-- The `for (i = 0; i < bw; i++) if (btor_bv_get_bit (x, i)) break` scans
of `inv_mul_bv`: the lowest set bit position, `w` when the value has no
set bit below `w`. -/
def firstSetBit (w v : Nat) : Nat :=
  (((List.range w).find? (fun i => v.testBit i)).getD w)

/-- `btor_bv_power_of_two` (spec §3.1): `n` when the value equals `2^n`,
else `none`. -/
def bv_power_of_two (a : BtorBV) : Option Nat :=
  if a.v = 2 ^ firstSetBit a.w a.v then some (firstSetBit a.w a.v) else none

/-- `btor_bv_set_bit` (spec §3.1). -/
def bv_set_bit (a : BtorBV) (i : Nat) (b : Bool) : BtorBV :=
  ⟨a.w, if b then a.v ||| 2 ^ i else
    if a.v.testBit i then a.v - 2 ^ i else a.v⟩

/-- The `for (i = 0; i < n; i++) btor_bv_set_bit (res, bw - 1 - i, pick)`
loops of `inv_mul_bv`: overwrite the top `n` bits with random draws. -/
def setTopRandom (a : BtorBV) (n : Nat) (rnd : Nat → Bool) : BtorBV :=
  (List.range n).foldl (fun acc i => bv_set_bit acc (a.w - 1 - i) (rnd i)) a

/-- `inv_mul_bv` (src/btorslvpropsls.c:2837): find `res` with
`bve * res = bvmul`.  `rnd` supplies the random bit draws, `randFull` the
fully random value of the `bve = 0, bvmul = 0` case; `none` is the
conflict exit `BVMUL_CONF` (the `eidx`-dependent recovery code does not
compute the inverse value). -/
def inv_mul_bv (rnd : Nat → Bool) (randFull : BtorBV) (bve bvmul : BtorBV) :
    Option BtorBV :=
  let bw := bvmul.w
  if bve.v = 0 then
    if bvmul.v = 0 then some randFull else none
  else if bvmul.v % 2 = 1 ∧ ¬bve.v % 2 = 1 then none
  else if bve.v % 2 = 1 then
    some (bv_mul (bv_mod_inverse bve) bvmul)
  else
    match bv_power_of_two bve with
    | some n =>
      if firstSetBit bw bvmul.v < n then none
      else
        some (setTopRandom ⟨bw, (bv_slice bvmul (bw - 1) n).v⟩ n rnd)
    | none =>
      let j := firstSetBit bw bve.v
      if firstSetBit bw bvmul.v < j then none
      else
        some (setTopRandom
          (bv_mul ⟨bw, (bv_slice bvmul (bw - 1) j).v⟩
            (bv_mod_inverse ⟨bw, (bv_slice bve (bw - 1) j).v⟩)) j rnd)

theorem bv_mod_inverse_mul (a : BtorBV) (hodd : a.v % 2 = 1) :
    a.v * (bv_mod_inverse a).v % 2 ^ a.w = 1 % 2 ^ a.w := by
  have hco2 : Nat.Coprime a.v 2 := by
    have h2 : Nat.gcd 2 a.v = 1 := by
      rw [Nat.gcd_rec, hodd]
      rfl
    exact Nat.coprime_comm.mp h2
  have hco : Nat.Coprime a.v (2 ^ a.w) := Nat.Coprime.pow_right a.w hco2
  have hbez := Nat.gcd_eq_gcd_ab a.v (2 ^ a.w)
  rw [hco] at hbez
  have hMpos : (0 : Int) < (2 ^ a.w : Int) := by positivity
  have hMne : ((2 : Int) ^ a.w) ≠ 0 := by positivity
  have hinv : (bv_mod_inverse a).v =
      (Nat.gcdA a.v (2 ^ a.w) % (2 ^ a.w : Int)).toNat := rfl
  have hnonneg : 0 ≤ Nat.gcdA a.v (2 ^ a.w) % (2 ^ a.w : Int) := by
    apply Int.emod_nonneg
    exact_mod_cast hMne
  have hcast : ((bv_mod_inverse a).v : Int) =
      Nat.gcdA a.v (2 ^ a.w) % (2 ^ a.w : Int) := by
    rw [hinv, Int.toNat_of_nonneg hnonneg]
  have hint : (a.v : Int) * ((bv_mod_inverse a).v : Int) % (2 ^ a.w : Int) =
      1 % (2 ^ a.w : Int) := by
    rw [hcast, Int.mul_emod, Int.emod_emod_of_dvd _ dvd_rfl, ← Int.mul_emod]
    have h1 : (a.v : Int) * Nat.gcdA a.v (2 ^ a.w) =
        1 - (2 ^ a.w : Int) * Nat.gcdB a.v (2 ^ a.w) := by
      push_cast at hbez
      linarith
    rw [h1, Int.sub_emod, Int.mul_emod_right, sub_zero,
      Int.emod_emod_of_dvd _ dvd_rfl]
  exact_mod_cast hint

/-- **C5.** For every width `w`, every odd `o` of width `w` and every
target `x` of width `w`, `inv_mul_bv` with the other operand fixed to `o`
raises no conflict and returns `mod_inverse(o) · x`, and multiplying back
by `o` recovers `x` modulo `2^w`.  (`eidx` selects which child receives
the value and does not enter the computation.) -/
theorem inv_mul_bv_odd (rnd : Nat → Bool) (randFull : BtorBV)
    (o x : BtorBV) (hw : o.w = x.w) (hodd : o.v % 2 = 1) (hxn : x.norm) :
    inv_mul_bv rnd randFull o x = some (bv_mul (bv_mod_inverse o) x) ∧
      bv_mul (bv_mul (bv_mod_inverse o) x) o = x := by
  have hne : ¬o.v = 0 := by omega
  constructor
  · unfold inv_mul_bv
    simp [hne, hodd]
  · have hmodinv := bv_mod_inverse_mul o hodd
    have hx : x.v < 2 ^ x.w := hxn
    have hveq : (bv_mul (bv_mul (bv_mod_inverse o) x) o).v = x.v := by
      show (bv_mod_inverse o).v * x.v % 2 ^ o.w * o.v % 2 ^ o.w = x.v
      rw [Nat.mod_mul_mod]
      have h2 : (bv_mod_inverse o).v * x.v * o.v =
          o.v * (bv_mod_inverse o).v * x.v := by ring
      rw [h2, ← Nat.mod_mul_mod, hmodinv, Nat.mod_mul_mod, one_mul, hw,
        Nat.mod_eq_of_lt hx]
    have hweq : (bv_mul (bv_mul (bv_mod_inverse o) x) o).w = x.w := hw
    cases hres : bv_mul (bv_mul (bv_mod_inverse o) x) o with
    | mk rw rv =>
      rw [hres] at hveq hweq
      cases x with
      | mk xw xv =>
        simp only [BtorBV.mk.injEq]
        exact ⟨hweq, hveq⟩

/-- Witness for `inv_mul_bv_odd`: the spec's scenario §8.4.2 — `w = 8`,
`o = 3`, `target = 0b11001100`. -/
theorem inv_mul_bv_odd_witness :
    inv_mul_bv (fun _ => false) ⟨8, 0⟩ ⟨8, 3⟩ ⟨8, 204⟩ =
        some (bv_mul (bv_mod_inverse ⟨8, 3⟩) ⟨8, 204⟩) ∧
      bv_mul (bv_mul (bv_mod_inverse ⟨8, 3⟩) ⟨8, 204⟩) ⟨8, 3⟩ = ⟨8, 204⟩ :=
  inv_mul_bv_odd (fun _ => false) ⟨8, 0⟩ ⟨8, 3⟩ ⟨8, 204⟩ rfl (by decide)
    (by decide)

/-! ## Expression DAG of the propagation engine (src/btorslvpropsls.c)

The node kinds recomputed by `btor_propsls_update_cone`'s switch
(src/btorslvpropsls.c:698) plus variables and constants.  A DAG is a total
map from real node ids to nodes; a model is a total map from real node
ids to bit-vector values (`bv_model`; the `-id` companion entries are the
bitwise complements of the `+id` entries and are modelled as derived). -/

inductive NKind where
  | var
  | const (bits : BtorBV)
  | add
  | and
  | bvEq
  | ult
  | sll
  | srl
  | mul
  | udiv
  | urem
  | concat
  | slice (upper lower : Nat)
  | cond
  deriving DecidableEq, Repr

structure PNode where
  kind : NKind
  ch : List NRef
  deriving DecidableEq, Repr

/-- The value of a (possibly inverted) reference under the model
(`btor_model_get_bv`: the `-id` entry holds the complement). -/
def refVal (m : Nat → BtorBV) (r : NRef) : BtorBV :=
  if r.inv then bv_not (m r.id) else m r.id

/-! ## Soft-satisfaction score (`compute_sls_score_node`,
src/btorslvpropsls.c:131)

C `double`s are modelled as rationals; every branch of the computation is
translated verbatim.  Scores of children are read from the cache `sc`,
keyed by signed node id exactly as the C keys `score` by
`btor_node_get_id`. -/

def BTOR_SLS_SCORE_CFACT : ℚ := 1 / 2

/-- The AND case of `compute_sls_score_node` (src/btorslvpropsls.c:224):
the mean of the children's scores, with the rounding fix — if the mean is
1.0 but an operand is below 1.0 take the smaller operand. -/
def sls_score_and (s0 s1 : ℚ) : ℚ :=
  if (s0 + s1) / 2 = 1 ∧ (s0 < 1 ∨ s1 < 1) then (if s0 < s1 then s0 else s1)
  else (s0 + s1) / 2

/-- The final else of `compute_sls_score_node`
(src/btorslvpropsls.c:301): an atomic boolean scores its assignment. -/
def sls_score_other (m : Nat → BtorBV) (exp : NRef) : ℚ :=
  ((refVal m exp).v : ℚ)

/-- `compute_sls_score_node` (src/btorslvpropsls.c:131) for the reference
`exp` (tag = inverted occurrence) whose real node is `n`. -/
def compute_sls_score_node (m : Nat → BtorBV) (sc : Int → ℚ) (exp : NRef)
    (n : PNode) : ℚ :=
  match n.kind with
  | .and =>
    match n.ch with
    | [e0, e1] =>
      if exp.inv then max (sc (-(sidRef e0))) (sc (-(sidRef e1)))
      else sls_score_and (sc (sidRef e0)) (sc (sidRef e1))
    | _ => sls_score_other m exp
  | .bvEq =>
    match n.ch with
    | [e0, e1] =>
      if exp.inv then (if refVal m e0 = refVal m e1 then 0 else 1)
      else if refVal m e0 = refVal m e1 then 1
      else BTOR_SLS_SCORE_CFACT *
        (1 - (hamming_distance (refVal m e0) (refVal m e1) : ℚ) /
          ((refVal m e0).w : ℚ))
    | _ => sls_score_other m exp
  | .ult =>
    match n.ch with
    | [e0, e1] =>
      if exp.inv then
        (if (refVal m e1).v ≤ (refVal m e0).v then 1
         else BTOR_SLS_SCORE_CFACT *
           (1 - (min_flip_inv (refVal m e0) (refVal m e1) : ℚ) /
             ((refVal m e0).w : ℚ)))
      else if (refVal m e0).v < (refVal m e1).v then 1
      else BTOR_SLS_SCORE_CFACT *
        (1 - (min_flip (refVal m e0) (refVal m e1) : ℚ) /
          ((refVal m e0).w : ℚ))
    | _ => sls_score_other m exp
  | _ => sls_score_other m exp

/-- A boolean slot of the model: width 1, value in `{0, 1}`. -/
def boolVal (m : Nat → BtorBV) (r : NRef) : Prop :=
  (m r.id).w = 1 ∧ (m r.id).v < 2

/-- Validity of a cached score entry (the inductive hypothesis of §4.2.2):
within `[0,1]`, and 1 exactly when the referenced value is 1. -/
def scoreValid (m : Nat → BtorBV) (sc : Int → ℚ) (r : NRef) : Prop :=
  0 ≤ sc (sidRef r) ∧ sc (sidRef r) ≤ 1 ∧
    (sc (sidRef r) = 1 ↔ (refVal m r).v = 1)

/-- Consistency of the model (and the score cache) with the children of
the node being scored, per kind: an `and` node's slot holds the
conjunction of its children's (boolean) values and the four child score
entries are valid; `bv_eq`/`ult` slots hold the comparison of the
children's (width-compatible, normal) values; every other boolean node
has a boolean slot. -/
def scoreNodeConsistent (m : Nat → BtorBV) (sc : Int → ℚ) (id : Nat)
    (n : PNode) : Prop :=
  match n.kind with
  | .and =>
    match n.ch with
    | [e0, e1] =>
      m id = bv_and (refVal m e0) (refVal m e1) ∧
        boolVal m e0 ∧ boolVal m e1 ∧
        scoreValid m sc e0 ∧ scoreValid m sc e1 ∧
        scoreValid m sc (invertRef e0) ∧ scoreValid m sc (invertRef e1)
    | _ => (m id).w = 1 ∧ (m id).v < 2
  | .bvEq =>
    match n.ch with
    | [e0, e1] =>
      m id = bv_eq (refVal m e0) (refVal m e1) ∧
        (refVal m e0).w = (refVal m e1).w ∧
        (refVal m e0).norm ∧ (refVal m e1).norm
    | _ => (m id).w = 1 ∧ (m id).v < 2
  | .ult =>
    match n.ch with
    | [e0, e1] =>
      m id = bv_ult (refVal m e0) (refVal m e1) ∧
        (refVal m e0).w = (refVal m e1).w ∧
        (refVal m e0).norm ∧ (refVal m e1).norm
    | _ => (m id).w = 1 ∧ (m id).v < 2
  | _ => (m id).w = 1 ∧ (m id).v < 2

theorem sidRef_invert (r : NRef) : sidRef (invertRef r) = -(sidRef r) := by
  rcases r with ⟨i, id⟩
  cases i <;> simp [sidRef, invertRef]

theorem refVal_w_one (m : Nat → BtorBV) (r : NRef) (h : boolVal m r) :
    (refVal m r).w = 1 := by
  unfold refVal
  split
  · exact h.1
  · exact h.1

theorem refVal_lt_two (m : Nat → BtorBV) (r : NRef) (h : boolVal m r) :
    (refVal m r).v < 2 := by
  unfold refVal
  split
  · show 2 ^ (m r.id).w - 1 - (m r.id).v < 2
    rw [h.1]
    omega
  · exact h.2

theorem refVal_invert_val (m : Nat → BtorBV) (r : NRef) (h : boolVal m r) :
    (refVal m (invertRef r)).v = 1 - (refVal m r).v := by
  obtain ⟨hw, hv⟩ := h
  rcases r with ⟨i, id⟩
  simp only [boolVal] at hw hv
  cases i
  · show (bv_not (m id)).v = 1 - (m id).v
    simp only [bv_not]
    rw [hw]
    norm_num
  · show (m id).v = 1 - (bv_not (m id)).v
    simp only [bv_not]
    rw [hw]
    norm_num
    omega

theorem refVal_invert_one_iff (m : Nat → BtorBV) (r : NRef)
    (h : boolVal m r) :
    ((refVal m (invertRef r)).v = 1 ↔ (refVal m r).v = 0) := by
  rw [refVal_invert_val m r h]
  have := refVal_lt_two m r h
  omega

/-- The rounding fix of the AND score: when the mean is 1.0 but an operand
is below 1.0, the result is the minimum of the operands. -/
theorem sls_score_and_fix (s0 s1 : ℚ) (h1 : (s0 + s1) / 2 = 1)
    (h2 : s0 < 1 ∨ s1 < 1) : sls_score_and s0 s1 = min s0 s1 := by
  unfold sls_score_and
  rw [if_pos ⟨h1, h2⟩]
  rcases lt_trichotomy s0 s1 with h | h | h
  · rw [if_pos h, min_eq_left (le_of_lt h)]
  · rw [h, if_neg (lt_irrefl s1), min_self]
  · rw [if_neg (not_lt.mpr (le_of_lt h)), min_eq_right (le_of_lt h)]

theorem sls_score_and_eq_mean (s0 s1 : ℚ) (h0 : s0 ≤ 1) (h1 : s1 ≤ 1) :
    sls_score_and s0 s1 = (s0 + s1) / 2 := by
  unfold sls_score_and
  rw [if_neg]
  rintro ⟨hm, hlt⟩
  rcases hlt with h | h <;> linarith

theorem score_frac_bounds (mf wid : Nat) (hle : mf ≤ wid) :
    0 ≤ BTOR_SLS_SCORE_CFACT * (1 - (mf : ℚ) / (wid : ℚ)) ∧
      BTOR_SLS_SCORE_CFACT * (1 - (mf : ℚ) / (wid : ℚ)) ≤ 1 / 2 := by
  by_cases hw : wid = 0
  · subst hw
    have hmf : mf = 0 := by omega
    subst hmf
    norm_num [BTOR_SLS_SCORE_CFACT]
  · have hwp : (0 : ℚ) < (wid : ℚ) := by exact_mod_cast Nat.pos_of_ne_zero hw
    have hd1 : (mf : ℚ) / (wid : ℚ) ≤ 1 := by
      rw [div_le_one hwp]
      exact_mod_cast hle
    have hd0 : (0 : ℚ) ≤ (mf : ℚ) / (wid : ℚ) := by positivity
    unfold BTOR_SLS_SCORE_CFACT
    constructor <;> linarith

theorem land_one_iff (a b : Nat) (ha : a < 2) (hb : b < 2) :
    (a &&& b = 1 ↔ a = 1 ∧ b = 1) ∧ a &&& b < 2 := by
  have ha' : a = 0 ∨ a = 1 := by omega
  have hb' : b = 0 ∨ b = 1 := by omega
  rcases ha' with rfl | rfl <;> rcases hb' with rfl | rfl <;> decide

theorem max_eq_one_iff (t0 t1 : ℚ) (h0 : t0 ≤ 1) (h1 : t1 ≤ 1) :
    max t0 t1 = 1 ↔ t0 = 1 ∨ t1 = 1 := by
  constructor
  · intro h
    rcases max_choice t0 t1 with hc | hc <;> rw [hc] at h
    · exact Or.inl h
    · exact Or.inr h
  · rintro (h | h)
    · exact le_antisymm (max_le h0 h1) (h ▸ le_max_left t0 t1)
    · exact le_antisymm (max_le h0 h1) (h ▸ le_max_right t0 t1)

theorem score_other_ok (m : Nat → BtorBV) (exp : NRef)
    (h : boolVal m exp) :
    0 ≤ sls_score_other m exp ∧ sls_score_other m exp ≤ 1 ∧
      (sls_score_other m exp = 1 ↔ (refVal m exp).v = 1) := by
  have h2 : (refVal m exp).v < 2 := refVal_lt_two m exp h
  unfold sls_score_other
  refine ⟨by positivity, ?_, ?_⟩
  · have : (refVal m exp).v ≤ 1 := by omega
    exact_mod_cast this
  · constructor
    · intro hq
      exact_mod_cast hq
    · intro hv
      rw [hv]
      norm_num

theorem refVal_mk_false (m : Nat → BtorBV) (id : Nat) :
    (refVal m ⟨false, id⟩).v = (m id).v := rfl

theorem refVal_mk_true (m : Nat → BtorBV) (id : Nat) (hmw : (m id).w = 1) :
    (refVal m ⟨true, id⟩).v = 1 - (m id).v := by
  show (bv_not (m id)).v = 1 - (m id).v
  simp only [bv_not]
  rw [hmw]
  norm_num

theorem score_and_ok (m : Nat → BtorBV) (sc : Int → ℚ) (inv : Bool)
    (id : Nat) (e0 e1 : NRef)
    (hm : m id = bv_and (refVal m e0) (refVal m e1))
    (hb0 : boolVal m e0) (hb1 : boolVal m e1)
    (hs0 : scoreValid m sc e0) (hs1 : scoreValid m sc e1)
    (hs0i : scoreValid m sc (invertRef e0))
    (hs1i : scoreValid m sc (invertRef e1)) :
    0 ≤ compute_sls_score_node m sc ⟨inv, id⟩ ⟨.and, [e0, e1]⟩ ∧
      compute_sls_score_node m sc ⟨inv, id⟩ ⟨.and, [e0, e1]⟩ ≤ 1 ∧
      (compute_sls_score_node m sc ⟨inv, id⟩ ⟨.and, [e0, e1]⟩ = 1 ↔
        (refVal m ⟨inv, id⟩).v = 1) := by
  have hv0 := refVal_lt_two m e0 hb0
  have hv1 := refVal_lt_two m e1 hb1
  have hw0 := refVal_w_one m e0 hb0
  have hmv : (m id).v = (refVal m e0).v &&& (refVal m e1).v := by
    rw [hm]
    rfl
  have hmw : (m id).w = 1 := by
    rw [hm]
    exact hw0
  have hland := land_one_iff (refVal m e0).v (refVal m e1).v hv0 hv1
  cases inv
  case false =>
    have hred : compute_sls_score_node m sc ⟨false, id⟩ ⟨.and, [e0, e1]⟩ =
        sls_score_and (sc (sidRef e0)) (sc (sidRef e1)) := rfl
    obtain ⟨h0a, h0b, h0c⟩ := hs0
    obtain ⟨h1a, h1b, h1c⟩ := hs1
    rw [hred, sls_score_and_eq_mean _ _ h0b h1b, refVal_mk_false, hmv,
      hland.1]
    refine ⟨by linarith, by linarith, ?_⟩
    constructor
    · intro h
      have he0 : sc (sidRef e0) = 1 := by linarith
      have he1 : sc (sidRef e1) = 1 := by linarith
      exact ⟨h0c.mp he0, h1c.mp he1⟩
    · rintro ⟨hx, hy⟩
      have := h0c.mpr hx
      have := h1c.mpr hy
      linarith
  case true =>
    have hred : compute_sls_score_node m sc ⟨true, id⟩ ⟨.and, [e0, e1]⟩ =
        max (sc (-(sidRef e0))) (sc (-(sidRef e1))) := rfl
    have hk0 : sc (-(sidRef e0)) = sc (sidRef (invertRef e0)) := by
      rw [sidRef_invert]
    have hk1 : sc (-(sidRef e1)) = sc (sidRef (invertRef e1)) := by
      rw [sidRef_invert]
    obtain ⟨hi0a, hi0b, hi0c⟩ := hs0i
    obtain ⟨hi1a, hi1b, hi1c⟩ := hs1i
    rw [hred, hk0, hk1]
    refine ⟨le_trans hi0a (le_max_left _ _), max_le hi0b hi1b, ?_⟩
    rw [max_eq_one_iff _ _ hi0b hi1b, hi0c, hi1c,
      refVal_invert_one_iff m e0 hb0, refVal_invert_one_iff m e1 hb1,
      refVal_mk_true m id hmw, hmv]
    have hlt2 := hland.2
    have hiff := hland.1
    constructor
    · rintro (h | h)
      · have hne : (refVal m e0).v &&& (refVal m e1).v ≠ 1 := fun hc =>
          absurd (hiff.mp hc).1 (by omega)
        omega
      · have hne : (refVal m e0).v &&& (refVal m e1).v ≠ 1 := fun hc =>
          absurd (hiff.mp hc).2 (by omega)
        omega
    · intro h
      by_contra hc
      push_neg at hc
      have hx : (refVal m e0).v = 1 := by omega
      have hy : (refVal m e1).v = 1 := by omega
      have := hiff.mpr ⟨hx, hy⟩
      omega

theorem score_eq_ok (m : Nat → BtorBV) (sc : Int → ℚ) (inv : Bool)
    (id : Nat) (e0 e1 : NRef)
    (hm : m id = bv_eq (refVal m e0) (refVal m e1))
    (hww : (refVal m e0).w = (refVal m e1).w)
    (h0 : (refVal m e0).norm) (h1 : (refVal m e1).norm) :
    0 ≤ compute_sls_score_node m sc ⟨inv, id⟩ ⟨.bvEq, [e0, e1]⟩ ∧
      compute_sls_score_node m sc ⟨inv, id⟩ ⟨.bvEq, [e0, e1]⟩ ≤ 1 ∧
      (compute_sls_score_node m sc ⟨inv, id⟩ ⟨.bvEq, [e0, e1]⟩ = 1 ↔
        (refVal m ⟨inv, id⟩).v = 1) := by
  have hmv : (m id).v = if refVal m e0 = refVal m e1 then 1 else 0 := by
    rw [hm]
    rfl
  have hmw : (m id).w = 1 := by
    rw [hm]
    rfl
  cases inv
  case false =>
    have hred : compute_sls_score_node m sc ⟨false, id⟩ ⟨.bvEq, [e0, e1]⟩ =
        (if refVal m e0 = refVal m e1 then (1 : ℚ)
         else BTOR_SLS_SCORE_CFACT *
           (1 - (hamming_distance (refVal m e0) (refVal m e1) : ℚ) /
             ((refVal m e0).w : ℚ))) := rfl
    rw [hred, refVal_mk_false, hmv]
    by_cases heq : refVal m e0 = refVal m e1
    · simp only [if_pos heq]
      exact ⟨by norm_num, by norm_num, by simp⟩
    · simp only [if_neg heq]
      have hfb := score_frac_bounds
        (hamming_distance (refVal m e0) (refVal m e1)) (refVal m e0).w
        (hamming_distance_le _ _ h0 h1 hww)
      refine ⟨hfb.1, by linarith [hfb.2], ?_⟩
      constructor
      · intro h
        exfalso
        linarith [hfb.2]
      · intro h
        exact absurd h (by omega)
  case true =>
    have hred : compute_sls_score_node m sc ⟨true, id⟩ ⟨.bvEq, [e0, e1]⟩ =
        (if refVal m e0 = refVal m e1 then (0 : ℚ) else 1) := rfl
    rw [hred, refVal_mk_true m id hmw, hmv]
    by_cases heq : refVal m e0 = refVal m e1
    · simp only [if_pos heq]
      refine ⟨le_refl 0, by norm_num, ?_⟩
      constructor
      · intro h
        norm_num at h
      · intro h
        omega
    · simp only [if_neg heq]
      refine ⟨by norm_num, le_refl 1, ?_⟩
      simp

theorem score_ult_ok (m : Nat → BtorBV) (sc : Int → ℚ) (inv : Bool)
    (id : Nat) (e0 e1 : NRef)
    (hm : m id = bv_ult (refVal m e0) (refVal m e1))
    (hww : (refVal m e0).w = (refVal m e1).w)
    (h0 : (refVal m e0).norm) (h1 : (refVal m e1).norm) :
    0 ≤ compute_sls_score_node m sc ⟨inv, id⟩ ⟨.ult, [e0, e1]⟩ ∧
      compute_sls_score_node m sc ⟨inv, id⟩ ⟨.ult, [e0, e1]⟩ ≤ 1 ∧
      (compute_sls_score_node m sc ⟨inv, id⟩ ⟨.ult, [e0, e1]⟩ = 1 ↔
        (refVal m ⟨inv, id⟩).v = 1) := by
  have hmv : (m id).v =
      if (refVal m e0).v < (refVal m e1).v then 1 else 0 := by
    rw [hm]
    rfl
  have hmw : (m id).w = 1 := by
    rw [hm]
    rfl
  cases inv
  case false =>
    have hred : compute_sls_score_node m sc ⟨false, id⟩ ⟨.ult, [e0, e1]⟩ =
        (if (refVal m e0).v < (refVal m e1).v then (1 : ℚ)
         else BTOR_SLS_SCORE_CFACT *
           (1 - (min_flip (refVal m e0) (refVal m e1) : ℚ) /
             ((refVal m e0).w : ℚ))) := rfl
    rw [hred, refVal_mk_false, hmv]
    by_cases hlt : (refVal m e0).v < (refVal m e1).v
    · simp only [if_pos hlt]
      exact ⟨by norm_num, by norm_num, by simp⟩
    · simp only [if_neg hlt]
      have hfb := score_frac_bounds (min_flip (refVal m e0) (refVal m e1))
        (refVal m e0).w (min_flip_le _ _ h0 h1 hww)
      refine ⟨hfb.1, by linarith [hfb.2], ?_⟩
      constructor
      · intro h
        exfalso
        linarith [hfb.2]
      · intro h
        exact absurd h (by omega)
  case true =>
    have hred : compute_sls_score_node m sc ⟨true, id⟩ ⟨.ult, [e0, e1]⟩ =
        (if (refVal m e1).v ≤ (refVal m e0).v then (1 : ℚ)
         else BTOR_SLS_SCORE_CFACT *
           (1 - (min_flip_inv (refVal m e0) (refVal m e1) : ℚ) /
             ((refVal m e0).w : ℚ))) := rfl
    rw [hred, refVal_mk_true m id hmw, hmv]
    by_cases hle : (refVal m e1).v ≤ (refVal m e0).v
    · simp only [if_pos hle, if_neg (not_lt.mpr hle)]
      exact ⟨by norm_num, by norm_num, by simp⟩
    · push_neg at hle
      simp only [if_neg (not_le.mpr hle), if_pos hle]
      have hfb := score_frac_bounds
        (min_flip_inv (refVal m e0) (refVal m e1)) (refVal m e0).w
        (min_flip_inv_le _ _)
      refine ⟨hfb.1, by linarith [hfb.2], ?_⟩
      constructor
      · intro h
        exfalso
        linarith [hfb.2]
      · intro h
        exact absurd h (by omega)

/-- **C2.** For every boolean (width-1) node scored by
`compute_sls_score_node` under a model consistent with the node's
children, the result lies in `[0,1]` and equals 1 exactly when the scored
reference's value under the model is 1; and the AND mean is replaced by
the minimum of the operand scores whenever the mean is 1.0 but an operand
is below 1.0. -/
theorem compute_sls_score_node_valid (m : Nat → BtorBV) (sc : Int → ℚ)
    (exp : NRef) (n : PNode)
    (hcons : scoreNodeConsistent m sc exp.id n) :
    (0 ≤ compute_sls_score_node m sc exp n ∧
        compute_sls_score_node m sc exp n ≤ 1 ∧
        (compute_sls_score_node m sc exp n = 1 ↔ (refVal m exp).v = 1)) ∧
      ∀ s0 s1 : ℚ, (s0 + s1) / 2 = 1 → s0 < 1 ∨ s1 < 1 →
        sls_score_and s0 s1 = min s0 s1 := by
  refine ⟨?_, fun s0 s1 ha hb => sls_score_and_fix s0 s1 ha hb⟩
  rcases exp with ⟨inv, id⟩
  rcases n with ⟨k, ch⟩
  cases k with
  | var => exact score_other_ok m ⟨inv, id⟩ hcons
  | const bits => exact score_other_ok m ⟨inv, id⟩ hcons
  | add => exact score_other_ok m ⟨inv, id⟩ hcons
  | sll => exact score_other_ok m ⟨inv, id⟩ hcons
  | srl => exact score_other_ok m ⟨inv, id⟩ hcons
  | mul => exact score_other_ok m ⟨inv, id⟩ hcons
  | udiv => exact score_other_ok m ⟨inv, id⟩ hcons
  | urem => exact score_other_ok m ⟨inv, id⟩ hcons
  | concat => exact score_other_ok m ⟨inv, id⟩ hcons
  | slice u l => exact score_other_ok m ⟨inv, id⟩ hcons
  | cond => exact score_other_ok m ⟨inv, id⟩ hcons
  | and =>
    match ch with
    | [] => exact score_other_ok m ⟨inv, id⟩ hcons
    | [_] => exact score_other_ok m ⟨inv, id⟩ hcons
    | _ :: _ :: _ :: _ => exact score_other_ok m ⟨inv, id⟩ hcons
    | [e0, e1] =>
      obtain ⟨h1, h2, h3, h4, h5, h6, h7⟩ := hcons
      exact score_and_ok m sc inv id e0 e1 h1 h2 h3 h4 h5 h6 h7
  | bvEq =>
    match ch with
    | [] => exact score_other_ok m ⟨inv, id⟩ hcons
    | [_] => exact score_other_ok m ⟨inv, id⟩ hcons
    | _ :: _ :: _ :: _ => exact score_other_ok m ⟨inv, id⟩ hcons
    | [e0, e1] =>
      obtain ⟨h1, h2, h3, h4⟩ := hcons
      exact score_eq_ok m sc inv id e0 e1 h1 h2 h3 h4
  | ult =>
    match ch with
    | [] => exact score_other_ok m ⟨inv, id⟩ hcons
    | [_] => exact score_other_ok m ⟨inv, id⟩ hcons
    | _ :: _ :: _ :: _ => exact score_other_ok m ⟨inv, id⟩ hcons
    | [e0, e1] =>
      obtain ⟨h1, h2, h3, h4⟩ := hcons
      exact score_ult_ok m sc inv id e0 e1 h1 h2 h3 h4

/-- Witness for `compute_sls_score_node_valid`: an `eq` node over the
width-4 assignments `0b0101` and `0b1001`. -/
theorem compute_sls_score_node_valid_witness :
    0 ≤ compute_sls_score_node
        (fun i => if i = 1 then ⟨4, 5⟩ else if i = 2 then ⟨4, 9⟩ else ⟨1, 0⟩)
        (fun _ => 0) ⟨false, 3⟩ ⟨.bvEq, [⟨false, 1⟩, ⟨false, 2⟩]⟩ ∧
      compute_sls_score_node
        (fun i => if i = 1 then ⟨4, 5⟩ else if i = 2 then ⟨4, 9⟩ else ⟨1, 0⟩)
        (fun _ => 0) ⟨false, 3⟩ ⟨.bvEq, [⟨false, 1⟩, ⟨false, 2⟩]⟩ ≤ 1 ∧
      (compute_sls_score_node
          (fun i => if i = 1 then ⟨4, 5⟩ else if i = 2 then ⟨4, 9⟩ else ⟨1, 0⟩)
          (fun _ => 0) ⟨false, 3⟩ ⟨.bvEq, [⟨false, 1⟩, ⟨false, 2⟩]⟩ = 1 ↔
        (refVal
          (fun i => if i = 1 then ⟨4, 5⟩ else if i = 2 then ⟨4, 9⟩ else ⟨1, 0⟩)
          ⟨false, 3⟩).v = 1) :=
  (compute_sls_score_node_valid
    (fun i => if i = 1 then ⟨4, 5⟩ else if i = 2 then ⟨4, 9⟩ else ⟨1, 0⟩)
    (fun _ => 0) ⟨false, 3⟩ ⟨.bvEq, [⟨false, 1⟩, ⟨false, 2⟩]⟩
    ⟨rfl, rfl, by decide, by decide⟩).1

/-! ## Cone-of-influence update (`btor_propsls_update_cone`,
src/btorslvpropsls.c:526)

The update installs the new assignments for the selected input variables
(`exps`), then recomputes the assignment of every node in the cone of
influence — the set of ancestors of the inputs, gathered by the
parent-list BFS and sorted by ascending id (children before parents, see
`node_id_gt_children`) — and maintains the `roots` table via
`update_roots_table` whenever a constraint/assumption node's assignment
flips.  The cone is passed as the sorted id list; the score recomputation
(which touches only the score cache, modelled by
`compute_sls_score_node`) is not part of the roots/model state. -/

/-- The recompute switch of `btor_propsls_update_cone`
(src/btorslvpropsls.c:698). -/
def applyKind : NKind → List BtorBV → BtorBV
  | .add, [a, b] => bv_add a b
  | .and, [a, b] => bv_and a b
  | .bvEq, [a, b] => bv_eq a b
  | .ult, [a, b] => bv_ult a b
  | .sll, [a, b] => bv_sll a b
  | .srl, [a, b] => bv_srl a b
  | .mul, [a, b] => bv_mul a b
  | .udiv, [a, b] => bv_udiv a b
  | .urem, [a, b] => bv_urem a b
  | .concat, [a, b] => bv_concat a b
  | .slice u l, [a] => bv_slice a u l
  | .cond, [c, a, b] => if bv_is_true c then a else b
  | _, _ => ⟨0, 0⟩

/-- Reading a child's current assignment (src/btorslvpropsls.c:675):
constants straight off the node (`invbits` caches the complement for
inverted references), every other child from `bv_model`.  The model is
total in this embedding, so the
`btor_model_recursively_compute_assignment` fallback for a missing entry
does not arise. -/
def childVal (dag : Nat → PNode) (m : Nat → BtorBV) (r : NRef) : BtorBV :=
  match (dag r.id).kind with
  | .const bits => if r.inv then bv_not bits else bits
  | _ => refVal m r

def childVals (dag : Nat → PNode) (m : Nat → BtorBV) (n : Nat) :
    List BtorBV :=
  (dag n).ch.map (childVal dag m)

/-- `update_roots_table` (src/btorslvpropsls.c:467), keyed by signed root
id: a satisfied entry is removed, a falsified root is added with the
polarity matching the new assignment. -/
def update_roots_table (roots : Int → Bool) (n : Nat) (bv : BtorBV) :
    Int → Bool :=
  if roots n then fun i => if i = (n : Int) then false else roots i
  else if roots (-(n : Int)) then
    fun i => if i = -(n : Int) then false else roots i
  else if bv_is_zero bv then fun i => if i = (n : Int) then true else roots i
  else fun i => if i = -(n : Int) then true else roots i

structure PropState where
  model : Nat → BtorBV
  roots : Int → Bool

/-- `cur->constraint || btor_hashptr_table_get (assumptions, cur) ||
btor_hashptr_table_get (assumptions, invert cur)`
(src/btorslvpropsls.c:727): the real node underlies a root occurrence. -/
def isRootNode (croots : List NRef) (n : Nat) : Bool :=
  croots.any fun r => r.id == n

/-- Store an assignment `bv` at node `n` (both phases of
`btor_propsls_update_cone`): when `update_roots` is set, the node
underlies a root and the assignment changed (`btor_bv_compare`), the
roots table is updated first; then the model entry is overwritten (the
`-id` companion entry becomes the complement, derived here by
`refVal`). -/
def storeAssignment (croots : List NRef) (update_roots : Bool)
    (st : PropState) (n : Nat) (bv : BtorBV) : PropState where
  model := fun i => if i = n then bv else st.model i
  roots :=
    if update_roots ∧ isRootNode croots n = true ∧ st.model n ≠ bv then
      update_roots_table st.roots n bv
    else st.roots

/-- One node of the cone pass (src/btorslvpropsls.c:671): recompute the
assignment from the children's current values. -/
def updateConeStep (dag : Nat → PNode) (croots : List NRef)
    (update_roots : Bool) (st : PropState) (n : Nat) : PropState :=
  storeAssignment croots update_roots st n
    (applyKind (dag n).kind (childVals dag st.model n))

/-- `btor_propsls_update_cone` (src/btorslvpropsls.c:526): install the new
input assignments, then recompute the cone in ascending id order. -/
def btor_propsls_update_cone (dag : Nat → PNode) (croots : List NRef)
    (update_roots : Bool) (exps : List (Nat × BtorBV)) (cone : List Nat)
    (st : PropState) : PropState :=
  cone.foldl (updateConeStep dag croots update_roots)
    (exps.foldl (fun s p => storeAssignment croots update_roots s p.1 p.2)
      st)

/-- The claimed invariant: the roots table holds the signed id of a root
occurrence exactly when that occurrence's value under the model is 0, and
holds nothing but root ids. -/
def rootsExact (croots : List NRef) (st : PropState) : Prop :=
  (∀ r ∈ croots, (st.roots (sidRef r) = true ↔ (refVal st.model r).v = 0)) ∧
    ∀ i, st.roots i = true → ∃ r ∈ croots, sidRef r = i

/-- Root occurrences have positive real ids, and a unique polarity per
real node (a root and its inversion are never both constraints or
assumptions; asserted at src/btorslvpropsls.c:576). -/
def crootsOk (croots : List NRef) : Prop :=
  (∀ r ∈ croots, 0 < r.id) ∧
    ∀ r ∈ croots, ∀ s ∈ croots, r.id = s.id → r.inv = s.inv

/-- Every model entry is normal. -/
def modelNorm (m : Nat → BtorBV) : Prop := ∀ n, (m n).norm

/-- Widths of the model entries agree with the baseline model. -/
def widthStable (m₀ m : Nat → BtorBV) : Prop := ∀ n, (m n).w = (m₀ n).w

/-- Constant nodes carry normal bits. -/
def dagConstNorm (dag : Nat → PNode) : Prop :=
  ∀ n b, (dag n).kind = NKind.const b → b.norm

/-- For a `cond` node the two branch values have equal widths (the C
result is a copy of one branch, so the recomputed width is
branch-independent only under this sort invariant).  Stated on the list
of child-value widths. -/
def condWidthsEq (k : NKind) (ws : List Nat) : Prop :=
  match k, ws with
  | .cond, [_, a, b] => a = b
  | _, _ => True

/-- The width of the value recomputed by `applyKind`, as a function of the
input widths alone. -/
def widthOfKind : NKind → List Nat → Nat
  | .add, [w0, _] => w0
  | .and, [w0, _] => w0
  | .bvEq, [_, _] => 1
  | .ult, [_, _] => 1
  | .sll, [w0, _] => w0
  | .srl, [w0, _] => w0
  | .mul, [w0, _] => w0
  | .udiv, [w0, _] => w0
  | .urem, [w0, _] => w0
  | .concat, [w0, w1] => w0 + w1
  | .slice u l, [_] => u - l + 1
  | .cond, [_, w1, _] => w1
  | _, _ => 0

/-- The combined induction invariant of the cone pass. -/
def StInv (croots : List NRef) (m₀ : Nat → BtorBV) (st : PropState) :
    Prop :=
  rootsExact croots st ∧ widthStable m₀ st.model ∧ modelNorm st.model

theorem bv_add_norm (a b : BtorBV) : (bv_add a b).norm :=
  Nat.mod_lt _ (Nat.pos_pow_of_pos _ (by omega))

theorem bv_and_norm (a b : BtorBV) (ha : a.norm) : (bv_and a b).norm :=
  lt_of_le_of_lt Nat.and_le_left ha

theorem bv_eq_norm (a b : BtorBV) : (bv_eq a b).norm := by
  show (if a = b then 1 else 0) < 2 ^ 1
  split <;> norm_num

theorem bv_ult_norm (a b : BtorBV) : (bv_ult a b).norm := by
  show (if a.v < b.v then 1 else 0) < 2 ^ 1
  split <;> norm_num

theorem bv_sll_norm (a b : BtorBV) : (bv_sll a b).norm :=
  Nat.mod_lt _ (Nat.pos_pow_of_pos _ (by omega))

theorem bv_srl_norm (a b : BtorBV) (ha : a.norm) : (bv_srl a b).norm :=
  lt_of_le_of_lt (Nat.div_le_self _ _) ha

theorem bv_mul_norm (a b : BtorBV) : (bv_mul a b).norm :=
  Nat.mod_lt _ (Nat.pos_pow_of_pos _ (by omega))

theorem bv_udiv_norm (a b : BtorBV) (ha : a.norm) : (bv_udiv a b).norm := by
  show (if b.v = 0 then 2 ^ a.w - 1 else a.v / b.v) < 2 ^ a.w
  have hp : 0 < 2 ^ a.w := Nat.pos_pow_of_pos _ (by omega)
  split
  · omega
  · exact lt_of_le_of_lt (Nat.div_le_self _ _) ha

theorem bv_urem_norm (a b : BtorBV) (ha : a.norm) : (bv_urem a b).norm := by
  show (if b.v = 0 then a.v else a.v % b.v) < 2 ^ a.w
  split
  · exact ha
  · exact lt_of_le_of_lt (Nat.mod_le _ _) ha

theorem bv_concat_norm (a b : BtorBV) (ha : a.norm) (hb : b.norm) :
    (bv_concat a b).norm := by
  show a.v * 2 ^ b.w + b.v < 2 ^ (a.w + b.w)
  have h1 : a.v + 1 ≤ 2 ^ a.w := ha
  calc a.v * 2 ^ b.w + b.v < a.v * 2 ^ b.w + 2 ^ b.w :=
        Nat.add_lt_add_left hb _
    _ = (a.v + 1) * 2 ^ b.w := by ring
    _ ≤ 2 ^ a.w * 2 ^ b.w := Nat.mul_le_mul_right _ h1
    _ = 2 ^ (a.w + b.w) := (pow_add 2 a.w b.w).symm

theorem bv_slice_norm (a : BtorBV) (u l : Nat) : (bv_slice a u l).norm :=
  Nat.mod_lt _ (Nat.pos_pow_of_pos _ (by omega))

theorem cond_val_norm (a b c : BtorBV) (hb : b.norm) (hc : c.norm) :
    (if bv_is_true a then b else c).norm := by
  split
  · exact hb
  · exact hc

theorem cond_val_w (a b c : BtorBV) (hbc : b.w = c.w) :
    (if bv_is_true a then b else c).w = b.w := by
  split
  · rfl
  · exact hbc.symm

theorem applyKind_norm (k : NKind) (vs : List BtorBV)
    (h : ∀ v ∈ vs, v.norm) : (applyKind k vs).norm := by
  have hjunk : ((⟨0, 0⟩ : BtorBV)).norm := by decide
  cases k <;>
    rcases vs with _ | ⟨a, _ | ⟨b, _ | ⟨c, _ | ⟨d, rest⟩⟩⟩⟩ <;>
    first
      | exact hjunk
      | exact bv_add_norm a b
      | exact bv_and_norm a b (h a (by simp))
      | exact bv_eq_norm a b
      | exact bv_ult_norm a b
      | exact bv_sll_norm a b
      | exact bv_srl_norm a b (h a (by simp))
      | exact bv_mul_norm a b
      | exact bv_udiv_norm a b (h a (by simp))
      | exact bv_urem_norm a b (h a (by simp))
      | exact bv_concat_norm a b (h a (by simp)) (h b (by simp))
      | exact bv_slice_norm a _ _
      | exact cond_val_norm a b c (h b (by simp)) (h c (by simp))

theorem applyKind_w (k : NKind) (vs : List BtorBV)
    (hc : condWidthsEq k (vs.map BtorBV.w)) :
    (applyKind k vs).w = widthOfKind k (vs.map BtorBV.w) := by
  cases k <;>
    rcases vs with _ | ⟨a, _ | ⟨b, _ | ⟨c, _ | ⟨d, rest⟩⟩⟩⟩ <;>
    first
      | rfl
      | exact cond_val_w a b c hc

theorem refVal_norm (m : Nat → BtorBV) (hm : modelNorm m) (r : NRef) :
    (refVal m r).norm := by
  unfold refVal
  split
  · exact bv_not_norm _
  · exact hm _

theorem refVal_w (m : Nat → BtorBV) (r : NRef) :
    (refVal m r).w = (m r.id).w := by
  unfold refVal
  split
  · rfl
  · rfl

theorem childVal_norm (dag : Nat → PNode) (m : Nat → BtorBV)
    (hm : modelNorm m) (hc : dagConstNorm dag) (r : NRef) :
    (childVal dag m r).norm := by
  unfold childVal
  cases hk : (dag r.id).kind
  case const bits =>
    show (if r.inv = true then bv_not bits else bits).norm
    by_cases hi : r.inv = true
    · rw [if_pos hi]
      exact bv_not_norm _
    · rw [if_neg hi]
      exact hc r.id bits hk
  all_goals exact refVal_norm m hm r

theorem childVal_w_stable (dag : Nat → PNode) (m₀ m : Nat → BtorBV)
    (hst : widthStable m₀ m) (r : NRef) :
    (childVal dag m r).w = (childVal dag m₀ r).w := by
  unfold childVal
  cases hk : (dag r.id).kind
  case const bits => rfl
  all_goals exact (refVal_w m r).trans ((hst r.id).trans (refVal_w m₀ r).symm)

theorem childVals_w_stable (dag : Nat → PNode) (m₀ m : Nat → BtorBV)
    (hst : widthStable m₀ m) (n : Nat) :
    (childVals dag m n).map BtorBV.w = (childVals dag m₀ n).map BtorBV.w := by
  unfold childVals
  rw [List.map_map, List.map_map]
  apply List.map_congr_left
  intro r _
  exact childVal_w_stable dag m₀ m hst r

theorem sidRef_eq_natCast (r : NRef) (n : Nat) (hn : 0 < n) :
    sidRef r = (n : Int) ↔ (r.inv = false ∧ r.id = n) := by
  rcases r with ⟨i, id⟩
  cases i
  · simp [sidRef]
  · simp [sidRef]
    omega

theorem sidRef_eq_neg_natCast (r : NRef) (n : Nat) (hn : 0 < n) :
    sidRef r = -(n : Int) ↔ (r.inv = true ∧ r.id = n) := by
  rcases r with ⟨i, id⟩
  cases i
  · simp [sidRef]
    omega
  · simp [sidRef]

/-- Soundness of one (guarded) `update_roots_table` call: if the roots
table was exact, the node underlies a root, the assignment is boolean on
both sides and changed, then the roots table is exact again for the model
updated at that node. -/
theorem update_roots_table_exact (croots : List NRef) (st : PropState)
    (n : Nat) (bv : BtorBV)
    (hok : crootsOk croots)
    (hinv : rootsExact croots st)
    (hroot : isRootNode croots n = true)
    (hw1 : (st.model n).w = 1) (hbw : bv.w = 1)
    (hn1 : (st.model n).v < 2) (hbn : bv.v < 2)
    (hne : st.model n ≠ bv) :
    rootsExact croots
      ⟨fun i => if i = n then bv else st.model i,
        update_roots_table st.roots n bv⟩ := by
  obtain ⟨hpos, hpol⟩ := hok
  obtain ⟨hinv1, hinv2⟩ := hinv
  obtain ⟨r0, hr0mem, hr0id⟩ : ∃ r0 ∈ croots, r0.id = n := by
    rcases List.any_eq_true.mp hroot with ⟨r, hr, he⟩
    exact ⟨r, hr, by simpa using he⟩
  have hnpos : 0 < n := hr0id ▸ hpos r0 hr0mem
  have hvne : (st.model n).v ≠ bv.v := by
    intro he
    apply hne
    rcases hsm : st.model n with ⟨w1, v1⟩
    rcases hbv : bv with ⟨w2, v2⟩
    rw [hsm] at hw1
    rw [hbv] at hbw
    rw [hsm, hbv] at he
    simp only at hw1 hbw he
    simp [hw1, hbw, he]
  have holdF : ∀ r : NRef, r.id = n → r.inv = false →
      (refVal st.model r).v = (st.model n).v := by
    intro r hr hi
    unfold refVal
    rw [hi, hr]
    simp
  have holdT : ∀ r : NRef, r.id = n → r.inv = true →
      (refVal st.model r).v = 1 - (st.model n).v := by
    intro r hr hi
    unfold refVal
    rw [hi]
    simp only [if_pos rfl]
    rw [hr]
    show 2 ^ (st.model n).w - 1 - (st.model n).v = 1 - (st.model n).v
    rw [hw1]
    norm_num
  have hnewF : ∀ r : NRef, r.id = n → r.inv = false →
      (refVal (fun i => if i = n then bv else st.model i) r).v = bv.v := by
    intro r hr hi
    unfold refVal
    rw [hi, hr]
    simp
  have hnewT : ∀ r : NRef, r.id = n → r.inv = true →
      (refVal (fun i => if i = n then bv else st.model i) r).v =
        1 - bv.v := by
    intro r hr hi
    unfold refVal
    rw [hi]
    simp only [if_pos rfl]
    rw [hr]
    simp only [if_pos rfl]
    show 2 ^ bv.w - 1 - bv.v = 1 - bv.v
    rw [hbw]
    norm_num
  have hunch : ∀ r : NRef, r.id ≠ n →
      (refVal (fun i => if i = n then bv else st.model i) r).v =
        (refVal st.model r).v := by
    intro r hr
    unfold refVal
    simp [hr]
  unfold update_roots_table
  by_cases b1 : st.roots (n : Int) = true
  · rw [if_pos b1]
    obtain ⟨rp, hrpmem, hrpsid⟩ := hinv2 (n : Int) b1
    obtain ⟨hrpinv, hrpid⟩ := (sidRef_eq_natCast rp n hnpos).mp hrpsid
    have hov : (st.model n).v = 0 := by
      have h := (hinv1 rp hrpmem).mp (by rw [hrpsid]; exact b1)
      rw [holdF rp hrpid hrpinv] at h
      exact h
    have hnv : bv.v ≠ 0 := by omega
    constructor
    · intro r hrmem
      by_cases hid : r.id = n
      · have hrinv : r.inv = false := by
          rw [hpol r hrmem rp hrpmem (by rw [hid, hrpid])]
          exact hrpinv
        rw [(sidRef_eq_natCast r n hnpos).mpr ⟨hrinv, hid⟩]
        simp only [if_pos rfl]
        rw [hnewF r hid hrinv]
        simp [hnv]
      · have hsne : sidRef r ≠ (n : Int) := fun he =>
          hid ((sidRef_eq_natCast r n hnpos).mp he).2
        simp only [if_neg hsne]
        rw [hunch r hid]
        exact hinv1 r hrmem
    · intro i hi
      by_cases hin : i = (n : Int)
      · rw [hin] at hi
        simp at hi
      · simp only [if_neg hin] at hi
        exact hinv2 i hi
  · rw [if_neg b1]
    by_cases b2 : st.roots (-(n : Int)) = true
    · rw [if_pos b2]
      obtain ⟨rn, hrnmem, hrnsid⟩ := hinv2 (-(n : Int)) b2
      obtain ⟨hrninv, hrnid⟩ := (sidRef_eq_neg_natCast rn n hnpos).mp hrnsid
      have hov : (st.model n).v = 1 := by
        have h := (hinv1 rn hrnmem).mp (by rw [hrnsid]; exact b2)
        rw [holdT rn hrnid hrninv] at h
        omega
      have hnv : bv.v = 0 := by omega
      constructor
      · intro r hrmem
        by_cases hid : r.id = n
        · have hrinv : r.inv = true := by
            rw [hpol r hrmem rn hrnmem (by rw [hid, hrnid])]
            exact hrninv
          rw [(sidRef_eq_neg_natCast r n hnpos).mpr ⟨hrinv, hid⟩]
          simp only [if_pos rfl]
          rw [hnewT r hid hrinv, hnv]
          simp
        · have hsne : sidRef r ≠ -(n : Int) := fun he =>
            hid ((sidRef_eq_neg_natCast r n hnpos).mp he).2
          simp only [if_neg hsne]
          rw [hunch r hid]
          exact hinv1 r hrmem
      · intro i hi
        by_cases hin : i = -(n : Int)
        · rw [hin] at hi
          simp at hi
        · simp only [if_neg hin] at hi
          exact hinv2 i hi
    · by_cases b3 : bv_is_zero bv = true
      · rw [if_neg b2, if_pos b3]
        have hnv : bv.v = 0 := by simpa [bv_is_zero] using b3
        have hneq1 : -(n : Int) ≠ (n : Int) := by omega
        constructor
        · intro r hrmem
          by_cases hid : r.id = n
          · cases hrinv : r.inv
            · rw [(sidRef_eq_natCast r n hnpos).mpr ⟨hrinv, hid⟩]
              simp only [if_pos rfl]
              rw [hnewF r hid hrinv, hnv]
              simp
            · rw [(sidRef_eq_neg_natCast r n hnpos).mpr ⟨hrinv, hid⟩]
              simp only [if_neg hneq1]
              rw [hnewT r hid hrinv, hnv]
              simp [b2]
          · have hsne : sidRef r ≠ (n : Int) := fun he =>
              hid ((sidRef_eq_natCast r n hnpos).mp he).2
            simp only [if_neg hsne]
            rw [hunch r hid]
            exact hinv1 r hrmem
        · intro i hi
          by_cases hin : i = (n : Int)
          · have hr0inv : r0.inv = false := by
              cases h0 : r0.inv
              · rfl
              · exfalso
                have h := hinv1 r0 hr0mem
                rw [(sidRef_eq_neg_natCast r0 n hnpos).mpr ⟨h0, hr0id⟩] at h
                rw [holdT r0 hr0id h0] at h
                have hne0 : ¬(1 - (st.model n).v = 0) := fun hz =>
                  b2 (h.mpr hz)
                omega
            exact ⟨r0, hr0mem, by
              rw [hin]
              exact (sidRef_eq_natCast r0 n hnpos).mpr ⟨hr0inv, hr0id⟩⟩
          · simp only [if_neg hin] at hi
            exact hinv2 i hi
      · rw [if_neg b2, if_neg b3]
        have hnv : bv.v = 1 := by
          have h0 : ¬bv.v = 0 := by simpa [bv_is_zero] using b3
          omega
        have hneq2 : (n : Int) ≠ -(n : Int) := by omega
        constructor
        · intro r hrmem
          by_cases hid : r.id = n
          · cases hrinv : r.inv
            · rw [(sidRef_eq_natCast r n hnpos).mpr ⟨hrinv, hid⟩]
              simp only [if_neg hneq2]
              rw [hnewF r hid hrinv, hnv]
              simp [b1]
            · rw [(sidRef_eq_neg_natCast r n hnpos).mpr ⟨hrinv, hid⟩]
              simp only [if_pos rfl]
              rw [hnewT r hid hrinv, hnv]
              simp
          · have hsne : sidRef r ≠ -(n : Int) := fun he =>
              hid ((sidRef_eq_neg_natCast r n hnpos).mp he).2
            simp only [if_neg hsne]
            rw [hunch r hid]
            exact hinv1 r hrmem
        · intro i hi
          by_cases hin : i = -(n : Int)
          · have hr0inv : r0.inv = true := by
              cases h0 : r0.inv
              · exfalso
                have h := hinv1 r0 hr0mem
                rw [(sidRef_eq_natCast r0 n hnpos).mpr ⟨h0, hr0id⟩] at h
                rw [holdF r0 hr0id h0] at h
                have hne0 : ¬((st.model n).v = 0) := fun hz => b1 (h.mpr hz)
                omega
              · rfl
            exact ⟨r0, hr0mem, by
              rw [hin]
              exact (sidRef_eq_neg_natCast r0 n hnpos).mpr ⟨hr0inv, hr0id⟩⟩
          · simp only [if_neg hin] at hi
            exact hinv2 i hi

/-- One store of the cone update — guarded roots maintenance followed by
the model write — preserves the combined invariant, for any written value
of the node's (baseline) width. -/
theorem storeAssignment_StInv (croots : List NRef) (m₀ : Nat → BtorBV)
    (st : PropState) (n : Nat) (bv : BtorBV)
    (hok : crootsOk croots)
    (hrw : ∀ r ∈ croots, (m₀ r.id).w = 1)
    (h : StInv croots m₀ st)
    (hbw : bv.w = (m₀ n).w) (hbn : bv.norm) :
    StInv croots m₀ (storeAssignment croots true st n bv) := by
  obtain ⟨hre, hws, hmn⟩ := h
  have hwidth : widthStable m₀ (fun i => if i = n then bv else st.model i) := by
    intro i
    show (if i = n then bv else st.model i).w = (m₀ i).w
    by_cases hi : i = n
    · rw [if_pos hi, hi]
      exact hbw
    · rw [if_neg hi]
      exact hws i
  have hnorm : modelNorm (fun i => if i = n then bv else st.model i) := by
    intro i
    show (if i = n then bv else st.model i).norm
    by_cases hi : i = n
    · rw [if_pos hi]
      exact hbn
    · rw [if_neg hi]
      exact hmn i
  unfold storeAssignment
  by_cases hcond : isRootNode croots n = true ∧ st.model n ≠ bv
  · have hroot := hcond.1
    have hw1 : (st.model n).w = 1 := by
      rcases List.any_eq_true.mp hroot with ⟨r, hrm, he⟩
      have hrn : r.id = n := by simpa using he
      rw [hws n, ← hrn]
      exact hrw r hrm
    have hbw1 : bv.w = 1 := by
      rw [hbw, ← hws n]
      exact hw1
    have hn1 : (st.model n).v < 2 := by
      have h2 : (st.model n).v < 2 ^ (st.model n).w := hmn n
      rw [hw1] at h2
      simpa using h2
    have hbn2 : bv.v < 2 := by
      have h2 : bv.v < 2 ^ bv.w := hbn
      rw [hbw1] at h2
      simpa using h2
    rw [if_pos ⟨rfl, hcond.1, hcond.2⟩]
    exact ⟨update_roots_table_exact croots st n bv ⟨hok.1, hok.2⟩
      ⟨hre.1, hre.2⟩ hroot hw1 hbw1 hn1 hbn2 hcond.2, hwidth, hnorm⟩
  · rw [if_neg (fun hcc => hcond ⟨hcc.2.1, hcc.2.2⟩)]
    refine ⟨⟨?_, ?_⟩, hwidth, hnorm⟩
    · intro r hrmem
      show st.roots (sidRef r) = true ↔
        (refVal (fun i => if i = n then bv else st.model i) r).v = 0
      by_cases hid : r.id = n
      · have hroot : isRootNode croots n = true :=
          List.any_eq_true.mpr ⟨r, hrmem, by simpa using hid⟩
        have heq : st.model n = bv := by
          by_contra hne2
          exact hcond ⟨hroot, hne2⟩
        have hfun : (fun i => if i = n then bv else st.model i) = st.model := by
          funext i
          by_cases hi : i = n
          · rw [if_pos hi, hi, heq]
          · rw [if_neg hi]
        rw [hfun]
        exact hre.1 r hrmem
      · have hval : (refVal (fun i => if i = n then bv else st.model i) r).v =
            (refVal st.model r).v := by
          unfold refVal
          simp [hid]
        rw [hval]
        exact hre.1 r hrmem
    · intro i hi
      exact hre.2 i hi

/-- The first phase of `btor_propsls_update_cone` (installing the new
variable assignments, src/btorslvpropsls.c:607) preserves the invariant
when every installed value has the variable's width and is normal. -/
theorem foldExps_StInv (croots : List NRef) (m₀ : Nat → BtorBV)
    (hok : crootsOk croots) (hrw : ∀ r ∈ croots, (m₀ r.id).w = 1)
    (exps : List (Nat × BtorBV)) : ∀ st : PropState,
    (∀ p ∈ exps, p.2.w = (m₀ p.1).w ∧ p.2.norm) → StInv croots m₀ st →
    StInv croots m₀
      (exps.foldl (fun s p => storeAssignment croots true s p.1 p.2) st) := by
  induction exps with
  | nil => exact fun st _ h => h
  | cons p ps ih =>
    intro st hexps h
    simp only [List.foldl_cons]
    exact ih _ (fun q hq => hexps q (List.mem_cons_of_mem _ hq))
      (storeAssignment_StInv croots m₀ st p.1 p.2 hok hrw h
        (hexps p (List.mem_cons_self _ _)).1
        (hexps p (List.mem_cons_self _ _)).2)

/-- One recomputation step of the cone pass preserves the invariant: the
value recomputed from the children is normal and has the node's baseline
width. -/
theorem updateConeStep_StInv (dag : Nat → PNode) (croots : List NRef)
    (m₀ : Nat → BtorBV) (hok : crootsOk croots)
    (hrw : ∀ r ∈ croots, (m₀ r.id).w = 1) (hcn : dagConstNorm dag)
    (st : PropState) (n : Nat)
    (hw : widthOfKind (dag n).kind ((childVals dag m₀ n).map BtorBV.w)
        = (m₀ n).w)
    (hcw : condWidthsEq (dag n).kind ((childVals dag m₀ n).map BtorBV.w))
    (h : StInv croots m₀ st) :
    StInv croots m₀ (updateConeStep dag croots true st n) := by
  obtain ⟨hre, hws, hmn⟩ := h
  have hmap : (childVals dag st.model n).map BtorBV.w =
      (childVals dag m₀ n).map BtorBV.w :=
    childVals_w_stable dag m₀ st.model hws n
  have hbn : (applyKind (dag n).kind (childVals dag st.model n)).norm := by
    apply applyKind_norm
    intro v hv
    rcases List.mem_map.mp (by simpa [childVals] using hv) with ⟨r, hr, hrv⟩
    exact hrv ▸ childVal_norm dag st.model hmn hcn r
  have hbw : (applyKind (dag n).kind (childVals dag st.model n)).w
      = (m₀ n).w := by
    rw [applyKind_w _ _ (by rw [hmap]; exact hcw), hmap]
    exact hw
  unfold updateConeStep
  exact storeAssignment_StInv croots m₀ st n _ hok hrw ⟨hre, hws, hmn⟩ hbw hbn

/-- The second phase of `btor_propsls_update_cone` (recomputing the cone
in ascending id order, src/btorslvpropsls.c:662) preserves the
invariant. -/
theorem foldCone_StInv (dag : Nat → PNode) (croots : List NRef)
    (m₀ : Nat → BtorBV) (hok : crootsOk croots)
    (hrw : ∀ r ∈ croots, (m₀ r.id).w = 1) (hcn : dagConstNorm dag)
    (cone : List Nat) : ∀ st : PropState,
    (∀ n ∈ cone,
      widthOfKind (dag n).kind ((childVals dag m₀ n).map BtorBV.w)
          = (m₀ n).w ∧
        condWidthsEq (dag n).kind ((childVals dag m₀ n).map BtorBV.w)) →
    StInv croots m₀ st →
    StInv croots m₀ (cone.foldl (updateConeStep dag croots true) st) := by
  induction cone with
  | nil => exact fun st _ h => h
  | cons n ns ih =>
    intro st hcone h
    simp only [List.foldl_cons]
    exact ih _ (fun q hq => hcone q (List.mem_cons_of_mem _ hq))
      (updateConeStep_StInv dag croots m₀ hok hrw hcn st n
        (hcone n (List.mem_cons_self _ _)).1
        (hcone n (List.mem_cons_self _ _)).2 h)

/-- C1: after `btor_propsls_update_cone` installs a non-empty set of new
assignments for bit-vector variables with `update_roots` true, the roots
table contains exactly the falsified roots — for every root occurrence
`r` in the constraint/assumption list, the signed id of `r` is in the
roots table if and only if `r`'s value under the updated `bv_model` is
zero, and the table holds nothing but such ids.  The side conditions say
the input data is well formed: roots have positive ids with one polarity
per node and width-1 values, constant nodes carry normal bits, the
installed values fit the variables' widths, each cone node's recomputed
width matches its stored width (with equal branch widths for `cond`),
and the invariant held before the call. -/
theorem btor_propsls_update_cone_roots_exact
    (dag : Nat → PNode) (croots : List NRef) (m₀ : Nat → BtorBV)
    (exps : List (Nat × BtorBV)) (cone : List Nat) (st : PropState)
    (_hne : exps ≠ [])
    (hok : crootsOk croots)
    (hrw : ∀ r ∈ croots, (m₀ r.id).w = 1)
    (hcn : dagConstNorm dag)
    (hexps : ∀ p ∈ exps, p.2.w = (m₀ p.1).w ∧ p.2.norm)
    (hcone : ∀ n ∈ cone,
      widthOfKind (dag n).kind ((childVals dag m₀ n).map BtorBV.w)
          = (m₀ n).w ∧
        condWidthsEq (dag n).kind ((childVals dag m₀ n).map BtorBV.w))
    (hinv : StInv croots m₀ st) :
    rootsExact croots
      (btor_propsls_update_cone dag croots true exps cone st) :=
  (foldCone_StInv dag croots m₀ hok hrw hcn cone _ hcone
    (foldExps_StInv croots m₀ hok hrw exps st hexps hinv)).1

/-- A two-node DAG for exercising the cone update: node 1 is a width-1
variable, node 2 is `and(node1, node1)`, the sole root. -/
def c1dag : Nat → PNode := fun n =>
  if n = 2 then ⟨NKind.and, [⟨false, 1⟩, ⟨false, 1⟩]⟩ else ⟨NKind.var, []⟩

def c1model : Nat → BtorBV := fun _ => ⟨1, 0⟩

def c1roots : Int → Bool := fun i => i == (2 : Int)

def c1croots : List NRef := [⟨false, 2⟩]

theorem btor_propsls_update_cone_roots_exact_witness :
    rootsExact c1croots
      (btor_propsls_update_cone c1dag c1croots true [(1, ⟨1, 1⟩)] [2]
        ⟨c1model, c1roots⟩) :=
  btor_propsls_update_cone_roots_exact c1dag c1croots c1model
    [(1, ⟨1, 1⟩)] [2] ⟨c1model, c1roots⟩
    (List.cons_ne_nil _ _)
    ⟨fun r hr => by
       simp only [c1croots, List.mem_singleton] at hr
       subst hr
       decide,
     fun r hr s hs _ => by
       simp only [c1croots, List.mem_singleton] at hr hs
       subst hr
       subst hs
       rfl⟩
    (fun r _ => rfl)
    (by
      intro n b h
      unfold c1dag at h
      by_cases hn : n = 2
      · rw [if_pos hn] at h
        simp at h
      · rw [if_neg hn] at h
        simp at h)
    (fun p hp => by
      rw [List.mem_singleton] at hp
      subst hp
      exact ⟨rfl, by decide⟩)
    (fun n hn => by
      rw [List.mem_singleton] at hn
      subst hn
      exact ⟨rfl, trivial⟩)
    ⟨⟨fun r hr => by
        simp only [c1croots, List.mem_singleton] at hr
        subst hr
        decide,
      fun i hi => by
        have h2 : i = (2 : Int) := by simpa [c1roots] using hi
        exact ⟨⟨false, 2⟩, by simp [c1croots], by rw [h2]; rfl⟩⟩,
     fun _ => rfl,
     fun _ => (by decide : ((⟨1, 0⟩ : BtorBV)).norm)⟩

end Boolector
